import Mathlib

/-!
Verification development for the wave-gen repository (a virtual piano /
Lissajous visualizer with a Standard MIDI File parser and player).

The JavaScript sources are shallowly embedded:

* a DataView buffer is a finite byte list; a read outside the buffer (or at
  a negative offset) is the JS RangeError, modelled by Option.none, and a
  thrown new Error is likewise none;
* JS numbers holding byte/tick data are Nat or Int (the bitwise operators
  of readVariableLength operate on signed 32-bit integers, modelled by an
  explicit wrap to the interval from -2^31 to 2^31 - 1);
* seconds values are Rat (the source only adds, multiplies and divides);
* Array.prototype.sort with a comparator is a stable sort, modelled by
  List.mergeSort on the corresponding boolean order;
* DOM and WebAudio side effects (classList updates, playNote and the like) are
  outside the embedded state; the keyStates array of the keyboard and the
  activeNotes set of the player are embedded, since claims are about them.
-/

namespace WaveGen

/-- Event kinds produced by MIDIParser.parseEvent. The undef constructor
models a JS event object whose type field was never assigned (the Set Tempo
and Time Signature branches skip the assignment when the length check fails). -/
inductive EventType where
  | noteOn
  | noteOff
  | controlChange
  | tempo
  | timeSignature
  | endOfTrack
  | meta
  | sysex
  | unknown
  | undef
deriving DecidableEq, Repr

/-- A parsed MIDI event. JS event objects carry only the fields their branch
assigns; absent fields are modelled by the default value 0. -/
structure MidiEvent where
  time : Int := 0
  type : EventType := .undef
  channel : Nat := 0
  note : Nat := 0
  velocity : Nat := 0
  controller : Nat := 0
  value : Nat := 0
  status : Nat := 0
  tempo : Nat := 0
  numerator : Nat := 0
  denominator : Nat := 0
  metaType : Nat := 0
  bytesRead : Int := 0
  track : Nat := 0
  seconds : Rat := 0
deriving DecidableEq, Repr

/-- DataView.getUint8: a byte read, failing (RangeError) outside the buffer. -/
def getU8 (bytes : List Nat) (i : Int) : Option Nat :=
  if 0 ≤ i then (bytes.get? i.toNat).map (· % 256) else none

/-- DataView.getUint16 (big-endian, as in the source). -/
def getU16 (bytes : List Nat) (i : Int) : Option Nat := do
  let hi ← getU8 bytes i
  let lo ← getU8 bytes (i + 1)
  pure (hi * 256 + lo)

/-- DataView.getUint32 (big-endian). -/
def getU32 (bytes : List Nat) (i : Int) : Option Nat := do
  let b0 ← getU8 bytes i
  let b1 ← getU8 bytes (i + 1)
  let b2 ← getU8 bytes (i + 2)
  let b3 ← getU8 bytes (i + 3)
  pure (((b0 * 256 + b1) * 256 + b2) * 256 + b3)

/-- MIDIParser.readString, as the list of character codes of the resulting
string (two strings built from fromCharCode are equal iff these lists are). -/
def readStringBytes (bytes : List Nat) (i : Int) (len : Nat) : Option (List Nat) :=
  (List.range len).mapM fun k => getU8 bytes (i + k)

/-- The unsigned 32-bit word a JS bitwise operand denotes (ToUint32). -/
def toUint32 (v : Int) : Nat := (v % 4294967296).toNat

/-- Reinterpret an unsigned 32-bit word as the signed result of a JS bitwise
operator (ToInt32 of the result). -/
def toInt32 (n : Nat) : Int :=
  if n % 4294967296 < 2147483648 then ((n % 4294967296 : Nat) : Int)
  else ((n % 4294967296 : Nat) : Int) - 4294967296

/-- One iteration of the accumulator update of readVariableLength:
value = (value << 7) | (byte & 0x7F). The shifted word has zero low bits,
so the bitwise or coincides with addition on the 32-bit words. -/
def vlqStep (v : Int) (b : Nat) : Int :=
  toInt32 (toUint32 v * 128 + b % 128)

/-- The loop of MIDIParser.readVariableLength, reading from the byte list
that starts at the current offset. Running past the end of the buffer is the
JS RangeError of getUint8. -/
def readVLQFrom : List Nat → Int → Nat → Option (Int × Nat)
  | [], _, _ => none
  | b :: rest, v, n =>
    let byte := b % 256
    let v2 := vlqStep v byte
    if 128 ≤ byte then readVLQFrom rest v2 (n + 1) else some (v2, n + 1)

/-- MIDIParser.readVariableLength: returns the pair (value, bytesRead). -/
def readVariableLength (bytes : List Nat) (offset : Int) : Option (Int × Nat) :=
  if offset < 0 then none else readVLQFrom (bytes.drop offset.toNat) 0 0

/-- Base-128 big-endian combination of the low 7 bits of a byte list, on top
of an accumulator; combFrom 0 bs is the mathematical value of a VLQ. -/
def combFrom (c : Nat) (bs : List Nat) : Nat :=
  bs.foldl (fun a b => a * 128 + b % 256 % 128) c

/-- The switch of MIDIParser.parseEvent, after the status byte and the count
of consumed status bytes (br, 0 under running status, 1 otherwise) are fixed.
Data bytes are read from offset + br on. -/
def decodeEvent (bytes : List Nat) (offset : Int) (status : Nat) (br : Nat)
    (time : Int) : Option MidiEvent :=
  let channel := Nat.land status 0x0F
  let messageType := Nat.land status 0xF0 >>> 4
  match messageType with
  | 8 => do
    let note ← getU8 bytes (offset + br)
    let vel ← getU8 bytes (offset + br + 1)
    pure { time := time, type := .noteOff, channel := channel, note := note,
           velocity := vel, status := status, bytesRead := (br : Int) + 2 }
  | 9 => do
    let vel ← getU8 bytes (offset + br + 1)
    let note ← getU8 bytes (offset + br)
    pure { time := time, type := if vel = 0 then .noteOff else .noteOn,
           channel := channel, note := note, velocity := vel, status := status,
           bytesRead := (br : Int) + 2 }
  | 11 => do
    let controller ← getU8 bytes (offset + br)
    let value ← getU8 bytes (offset + br + 1)
    pure { time := time, type := .controlChange, channel := channel,
           controller := controller, value := value, status := status,
           bytesRead := (br : Int) + 2 }
  | 15 =>
    if status = 255 then do
      let metaType ← getU8 bytes (offset + br)
      let brA := br + 1
      let lw ← readVariableLength bytes (offset + brA)
      let brB := brA + lw.2
      match metaType with
      | 0x51 =>
        if lw.1 = 3 then do
          let t1 ← getU8 bytes (offset + brB)
          let t2 ← getU8 bytes (offset + brB + 1)
          let t3 ← getU8 bytes (offset + brB + 2)
          pure { time := time, type := .tempo,
                 tempo := t1 * 65536 + t2 * 256 + t3,
                 bytesRead := (brB : Int) + lw.1 }
        else pure { time := time, bytesRead := (brB : Int) + lw.1 }
      | 0x58 =>
        if lw.1 = 4 then do
          let num ← getU8 bytes (offset + brB)
          let den ← getU8 bytes (offset + brB + 1)
          pure { time := time, type := .timeSignature, numerator := num,
                 denominator := 2 ^ den, bytesRead := (brB : Int) + lw.1 }
        else pure { time := time, bytesRead := (brB : Int) + lw.1 }
      | 0x2F =>
        pure { time := time, type := .endOfTrack, bytesRead := (brB : Int) + lw.1 }
      | _ =>
        pure { time := time, type := .meta, metaType := metaType,
               bytesRead := (brB : Int) + lw.1 }
    else pure { time := time, type := .sysex, bytesRead := (br : Int) + 1 }
  | _ => pure { time := time, type := .unknown, bytesRead := (br : Int) + 1 }

/-- MIDIParser.parseEvent: a first byte below 0x80 is data under running
status, so the event is decoded with the given running status and zero
consumed status bytes. -/
def parseEvent (bytes : List Nat) (offset : Int) (runningStatus : Nat)
    (time : Int) : Option MidiEvent := do
  let b0 ← getU8 bytes offset
  if b0 < 128 then decodeEvent bytes offset runningStatus 0 time
  else decodeEvent bytes offset b0 1 time

/-- The running-status update at the end of the loop body of
MIDIParser.parseTrackChunk. -/
def nextRunningStatus (e : MidiEvent) (rs : Nat) : Nat :=
  if e.type = .noteOn ∨ e.type = .noteOff ∨ e.type = .controlChange then e.status
  else rs

/-- The while loop of MIDIParser.parseTrackChunk. The fuel argument only
bounds the iteration count; parseTrackChunk passes enough fuel that it runs
out only when the offset stops advancing, in which case the JS loop never
terminates normally either (it loops forever or hits a RangeError). -/
def parseTrackLoop (bytes : List Nat) (trackEnd : Int) :
    Nat → Int → Nat → Int → List MidiEvent → Option (List MidiEvent)
  | 0, _, _, _, _ => none
  | fuel + 1, trackOffset, runningStatus, currentTime, acc =>
    if trackEnd ≤ trackOffset then some acc.reverse else do
      let dl ← readVariableLength bytes trackOffset
      let t := currentTime + dl.1
      let e ← parseEvent bytes (trackOffset + dl.2) runningStatus t
      parseTrackLoop bytes trackEnd fuel (trackOffset + dl.2 + e.bytesRead)
        (nextRunningStatus e runningStatus) t (e :: acc)

/-- Result of MIDIParser.parseHeaderChunk. -/
structure MidiHeader where
  length : Nat
  format : Nat
  trackCount : Nat
  ticksPerQuarter : Nat
deriving DecidableEq, Repr

/-- Result of MIDIParser.parseTrackChunk. -/
structure MidiTrack where
  length : Nat
  events : List MidiEvent
deriving DecidableEq, Repr

/-- Character codes of the string MThd. -/
def mthdSig : List Nat := [77, 84, 104, 100]

/-- Character codes of the string MTrk. -/
def mtrkSig : List Nat := [77, 84, 114, 107]

/-- MIDIParser.parseHeaderChunk: none is the thrown Error on a bad signature
or the RangeError of an out-of-range read. -/
def parseHeaderChunk (bytes : List Nat) (offset : Int) : Option MidiHeader := do
  let sig ← readStringBytes bytes offset 4
  if sig ≠ mthdSig then none else do
    let len ← getU32 bytes (offset + 4)
    let format ← getU16 bytes (offset + 8)
    let trackCount ← getU16 bytes (offset + 10)
    let tpq ← getU16 bytes (offset + 12)
    pure ⟨len, format, trackCount, tpq⟩

/-- MIDIParser.parseTrackChunk. Each loop iteration advances trackOffset by
at least one byte unless an event reports a nonpositive byte count (possible
only through a wrapped meta length), so len + 1 units of fuel cover every
normally terminating run of the JS loop. -/
def parseTrackChunk (bytes : List Nat) (offset : Int) : Option MidiTrack := do
  let sig ← readStringBytes bytes offset 4
  if sig ≠ mtrkSig then none else do
    let len ← getU32 bytes (offset + 4)
    let events ← parseTrackLoop bytes (offset + 8 + len) (len + 1) (offset + 8) 0 0 []
    pure ⟨len, events⟩

/-- The tick-to-seconds pass of MIDIParser.processEvents, along the already
sorted event list, carrying the current tempo, the accumulated seconds and
the previous tick time. -/
def assignSecondsGo (tpq : Nat) : Nat → Rat → Int → List MidiEvent → List MidiEvent
  | _, _, _, [] => []
  | tempo, ct, lastTick, e :: rest =>
    let tempo2 := if e.type = .tempo then e.tempo else tempo
    let tickDelta : Int := e.time - lastTick
    let secondsDelta : Rat := ((tickDelta : Rat) / (tpq : Rat)) * ((tempo2 : Rat) / 1000000)
    let ct2 := ct + secondsDelta
    { e with seconds := ct2 } :: assignSecondsGo tpq tempo2 ct2 e.time rest

/-- MIDIParser.processEvents: tag every event with its track index, merge the
tracks, sort by tick time (a stable sort, as Array.prototype.sort), and
assign seconds timestamps. tempo0 is this.tempo, the 500000 default. -/
def processEvents (tracks : List (List MidiEvent)) (tpq tempo0 : Nat) :
    List MidiEvent :=
  let allEvents := (tracks.enum.map fun p => p.2.map fun e => { e with track := p.1 }).flatten
  let sorted := allEvents.mergeSort fun a b => a.time ≤ b.time
  assignSecondsGo tpq tempo0 0 0 sorted

/-- Write one entry of a JS boolean array (keyStates with index arithmetic). -/
def setIdx (f : Nat → Bool) (i : Nat) (b : Bool) : Nat → Bool :=
  fun j => if j = i then b else f j

/-- State of MIDIPlayer together with the keyStates array of
window.virtualKeyboard, the visualization state the player writes to. -/
structure PlayerState where
  events : List MidiEvent := []
  isPlaying : Bool := false
  isPaused : Bool := false
  currentTime : Rat := 0
  startTime : Rat := 0
  pauseTime : Rat := 0
  eventIndex : Nat := 0
  duration : Rat := 0
  activeNotes : Finset Nat := ∅
  keyStates : Nat → Bool := fun _ => false

/-- MIDIPlayer.processEvent: a noteOn is registered in activeNotes and, for
notes 12 to 125, mirrored into keyStates; a noteOff is honoured only for an
active note. Other event types do nothing. -/
def playerProcessEvent (s : PlayerState) (e : MidiEvent) : PlayerState :=
  match e.type with
  | .noteOn =>
    let s1 := { s with activeNotes := insert e.note s.activeNotes }
    if 12 ≤ e.note ∧ e.note ≤ 125 then
      { s1 with keyStates := setIdx s1.keyStates (e.note - 12) true }
    else s1
  | .noteOff =>
    if e.note ∈ s.activeNotes then
      let s1 := { s with activeNotes := s.activeNotes.erase e.note }
      if 12 ≤ e.note ∧ e.note ≤ 125 then
        { s1 with keyStates := setIdx s1.keyStates (e.note - 12) false }
      else s1
    else s
  | _ => s

/-- MIDIPlayer.pause. -/
def pauseOp (s : PlayerState) : PlayerState :=
  if s.isPlaying = true ∧ s.isPaused = false then
    { s with isPaused := true, pauseTime := s.currentTime,
             activeNotes := ∅, keyStates := fun _ => false }
  else s

/-- MIDIPlayer.reset. -/
def resetOp (s : PlayerState) : PlayerState :=
  { s with currentTime := 0, eventIndex := 0, startTime := 0, pauseTime := 0,
           activeNotes := ∅, keyStates := fun _ => false }

/-- MIDIPlayer.stop: clear the play flags and both note stores, then reset. -/
def stopOp (s : PlayerState) : PlayerState :=
  resetOp { s with isPlaying := false, isPaused := false,
                   activeNotes := ∅, keyStates := fun _ => false }

/-- The while loop of MIDIPlayer.seek that advances eventIndex to the first
event at or after the target time. -/
def seekIndex (events : List MidiEvent) (t : Rat) : Nat :=
  (events.takeWhile fun e => e.seconds < t).length

/-- The backward scan of MIDIPlayer.seek over the events before the target
time (given here already reversed), collecting the notes that should sound.
The first component of the carried pair is notesAtTime, the second the notes
added to activeNotes. -/
def seekScan : List MidiEvent → Finset Nat → Finset Nat → Finset Nat
  | [], _, act => act
  | e :: rest, seen, act =>
    if e.type = .noteOn ∧ e.note ∉ seen then
      seekScan rest (insert e.note seen) (insert e.note act)
    else if e.type = .noteOff then
      seekScan rest (insert e.note seen) act
    else seekScan rest seen act

/-- MIDIPlayer.seek. It clears activeNotes and rebuilds it from the events
before the target time, but never writes keyStates. The now argument is
performance.now() / 1000. -/
def seekOp (now : Rat) (s : PlayerState) (timePercent : Rat) : PlayerState :=
  let targetTime := s.duration * timePercent
  let idx := seekIndex s.events targetTime
  let act := seekScan ((s.events.take idx).reverse) ∅ ∅
  let s1 := { s with activeNotes := act, eventIndex := idx }
  if s1.isPlaying = true ∧ s1.isPaused = false then
    { s1 with startTime := now - targetTime }
  else
    { s1 with currentTime := targetTime, pauseTime := targetTime }

/-- The eventIndex increment at the end of the loop body of
MIDIPlayer.update. -/
def bumpIndex (s : PlayerState) : PlayerState :=
  { s with eventIndex := s.eventIndex + 1 }

/-- The while loop of MIDIPlayer.update: dispatch events while the next one
is due. Also returns the list of dispatched events, in dispatch order. The
fuel only bounds iterations; events.length is enough, since every iteration
advances eventIndex and the loop stops at the end of the list. -/
def dispatchLoop : Nat → PlayerState → Rat → PlayerState × List MidiEvent
  | 0, s, _ => (s, [])
  | fuel + 1, s, ct =>
    match s.events[s.eventIndex]? with
    | none => (s, [])
    | some e =>
      if e.seconds ≤ ct then
        let r := dispatchLoop fuel (bumpIndex (playerProcessEvent s e)) ct
        (r.1, e :: r.2)
      else (s, [])

/-- MIDIPlayer.update at a given wall-clock reading, with the list of events
it dispatched. -/
def updateStep (now : Rat) (s : PlayerState) : PlayerState × List MidiEvent :=
  if s.isPlaying = false ∨ s.isPaused = true then (s, [])
  else
    let ct := now - s.startTime
    let s1 := { s with currentTime := ct }
    let r := dispatchLoop s1.events.length s1 ct
    if r.1.duration ≤ ct then (stopOp r.1, r.2) else (r.1, r.2)

/-- The MIDIPlayer operations named by the state-synchronization claim. -/
inductive PlayerOp where
  | processEvent (e : MidiEvent)
  | pause
  | stop
  | reset
  | seek (now : Rat) (timePercent : Rat)

/-- Apply one player operation. -/
def applyOp (s : PlayerState) : PlayerOp → PlayerState
  | .processEvent e => playerProcessEvent s e
  | .pause => pauseOp s
  | .stop => stopOp s
  | .reset => resetOp s
  | .seek now p => seekOp now s p

/-- Apply a sequence of player operations, first to last. -/
def applyOps (s : PlayerState) (ops : List PlayerOp) : PlayerState :=
  ops.foldl applyOp s

/-- The player-to-visualization synchronization invariant: a note in the
visible range is active exactly when its keyStates entry is set. -/
def SyncInv (s : PlayerState) : Prop :=
  ∀ n < 126, 12 ≤ n → (n ∈ s.activeNotes ↔ s.keyStates (n - 12) = true)

/-- The twelve note names that key the noteToMidi table of VirtualKeyboard. -/
inductive NoteName where
  | C | Cs | D | Ds | E | F | Fs | G | Gs | A | As | B
deriving DecidableEq, Repr

/-- The noteToMidi table of VirtualKeyboard (C0 = 12 up to F9 = 125; the
upper octave is missing from Fs on, as in the source arrays). -/
def noteToMidi : NoteName → List Nat
  | .C => [12, 24, 36, 48, 60, 72, 84, 96, 108, 120]
  | .Cs => [13, 25, 37, 49, 61, 73, 85, 97, 109, 121]
  | .D => [14, 26, 38, 50, 62, 74, 86, 98, 110, 122]
  | .Ds => [15, 27, 39, 51, 63, 75, 87, 99, 111, 123]
  | .E => [16, 28, 40, 52, 64, 76, 88, 100, 112, 124]
  | .F => [17, 29, 41, 53, 65, 77, 89, 101, 113, 125]
  | .Fs => [18, 30, 42, 54, 66, 78, 90, 102, 114]
  | .G => [19, 31, 43, 55, 67, 79, 91, 103, 115]
  | .Gs => [20, 32, 44, 56, 68, 80, 92, 104, 116]
  | .A => [21, 33, 45, 57, 69, 81, 93, 105, 117]
  | .As => [22, 34, 46, 58, 70, 82, 94, 106, 118]
  | .B => [23, 35, 47, 59, 71, 83, 95, 107, 119]

/-- Indexing noteToMidi[note][octave]; a negative or too large octave is the
JS undefined. -/
def midiFor (note : NoteName) (octave : Int) : Option Nat :=
  if 0 ≤ octave then (noteToMidi note).get? octave.toNat else none

/-- State of VirtualKeyboard. The JS physicallyPressed set holds the strings
note ++ toString octave; that encoding is injective on (note, octave) pairs
(octave digits never contain the sharp sign), so the set is modelled as a
set of pairs. -/
structure KeyboardState where
  currentOctave : Int := 4
  sustainMode : Bool := false
  keyStates : Nat → Bool := fun _ => false
  physicallyPressed : Finset (NoteName × Int) := ∅

/-- VirtualKeyboard.pressKey. -/
def pressKey (s : KeyboardState) (note : NoteName) (octaveOffset : Int) :
    KeyboardState :=
  let octave := s.currentOctave + octaveOffset
  match midiFor note octave with
  | none => s
  | some m =>
    if m < 12 ∨ 125 < m then s
    else if (note, octave) ∈ s.physicallyPressed then s
    else
      { s with physicallyPressed := insert (note, octave) s.physicallyPressed,
               keyStates := setIdx s.keyStates (m - 12) true }

/-- VirtualKeyboard.releaseKey: keyStates is cleared only when sustain is
off; the physicallyPressed entry is always removed. -/
def releaseKey (s : KeyboardState) (note : NoteName) (octaveOffset : Int) :
    KeyboardState :=
  let octave := s.currentOctave + octaveOffset
  match midiFor note octave with
  | none => s
  | some m =>
    if m < 12 ∨ 125 < m then s
    else if (note, octave) ∉ s.physicallyPressed then s
    else
      let s1 := { s with physicallyPressed := s.physicallyPressed.erase (note, octave) }
      if s1.sustainMode = false then
        { s1 with keyStates := setIdx s1.keyStates (m - 12) false }
      else s1

/-- A JS or-expression over frequencies: a missing or zero (falsy) value
falls back to fb, as in the frequency selection of
LissajousGenerator.createCurve. -/
def jsOrFreq (v : Option Rat) (fb : Rat) : Rat :=
  match v with
  | some x => if x = 0 then fb else x
  | none => fb

/-- The x-axis frequency chosen by createCurve: frequencies[0] or 440. -/
def chosenFreqX (l : List Rat) : Rat := jsOrFreq (l.get? 0) 440

/-- The y-axis frequency: frequencies[1], else frequencies[0] * 1.5, else 660. -/
def chosenFreqY (l : List Rat) : Rat :=
  jsOrFreq (l.get? 1) (jsOrFreq ((l.get? 0).map (· * (3 / 2))) 660)

/-- The z-axis frequency: frequencies[2], else frequencies[0] * 2, else 880. -/
def chosenFreqZ (l : List Rat) : Rat :=
  jsOrFreq (l.get? 2) (jsOrFreq ((l.get? 0).map (· * 2)) 880)

/-- Math.min of the three chosen frequencies (baseFreq in createCurve). -/
def baseFreq (l : List Rat) : Rat :=
  min (chosenFreqX l) (min (chosenFreqY l) (chosenFreqZ l))

/-- The ratio triple of createCurve: each chosen frequency divided by the
minimum of the three. -/
def curveRatios (l : List Rat) : Rat × Rat × Rat :=
  (chosenFreqX l / baseFreq l, chosenFreqY l / baseFreq l, chosenFreqZ l / baseFreq l)

/-- Point i of the Lissajous curve, from the ratio triple and the t range:
t = (i / 2000) * pi * tRange, with the phase offsets of the source. -/
noncomputable def curvePoint (rx ry rz tRange : Rat) (i : Nat) : ℝ × ℝ × ℝ :=
  let t : ℝ := ((i : ℝ) / 2000) * Real.pi * (tRange : ℝ)
  (5 * Real.sin ((rx : ℝ) * t),
   5 * Real.sin ((ry : ℝ) * t + Real.pi / 4),
   5 * Real.sin ((rz : ℝ) * t + Real.pi / 2))

/-- The 2000 curve points generated by LissajousGenerator.createCurve. -/
noncomputable def createCurvePoints (l : List Rat) (tRange : Rat) : List (ℝ × ℝ × ℝ) :=
  (List.range 2000).map fun i =>
    curvePoint (curveRatios l).1 (curveRatios l).2.1 (curveRatios l).2.2 tRange i

/-- The track filter of MIDIPlayer.applyTrackFilter: none is the all
selection, some i the parsed track index (tempo and time signature events
always pass). -/
def filterByTrack (allEvents : List MidiEvent) (trackFilter : Option Nat) :
    List MidiEvent :=
  match trackFilter with
  | none => allEvents
  | some i => allEvents.filter fun e =>
      decide (e.track = i ∨ e.type = .tempo ∨ e.type = .timeSignature)

/-- The first sort comparator of applyTrackFilter, as the keep-in-order
relation of a stable sort: a stays before b unless b has strictly smaller
seconds, or they share seconds and note and a is the noteOn of a
noteOn-noteOff pair. -/
def trackSortLE (a b : MidiEvent) : Bool :=
  decide (a.seconds < b.seconds ∨
    (a.seconds = b.seconds ∧
      (a.note ≠ b.note ∨ ¬(a.type = .noteOn ∧ b.type = .noteOff))))

/-- Math.round, on rationals. -/
def jsRound (q : Rat) : Int := ⌊q + 1 / 2⌋

/-- Insert an event into the JS Map of event groups: appended to its key
group if the key exists, otherwise a new key at the end (Map iteration is in
key insertion order). -/
def groupsInsert (gs : List (Int × List MidiEvent)) (k : Int) (e : MidiEvent) :
    List (Int × List MidiEvent) :=
  match gs with
  | [] => [(k, [e])]
  | (k2, es) :: rest =>
    if k2 = k then (k2, es ++ [e]) :: rest else (k2, es) :: groupsInsert rest k e

/-- Group events by their millisecond-rounded timestamp, as the eventGroups
Map of applyTrackFilter. -/
def groupByMs (l : List MidiEvent) : List (Int × List MidiEvent) :=
  l.foldl (fun gs e => groupsInsert gs (jsRound (e.seconds * 1000)) e) []

/-- The per-group deduplication of applyTrackFilter: non-note events always
pass; a note event passes when its note has no recorded state yet in this
group or flips the recorded state. The states list is the noteStates Map,
most recent entry first. -/
def dedupGroupGo : List MidiEvent → List (Nat × EventType) → List MidiEvent
  | [], _ => []
  | e :: rest, states =>
    if e.type ≠ .noteOn ∧ e.type ≠ .noteOff then e :: dedupGroupGo rest states
    else
      match states.lookup e.note with
      | none => e :: dedupGroupGo rest ((e.note, e.type) :: states)
      | some last =>
        if (last = .noteOff ∧ e.type = .noteOn) ∨ (last = .noteOn ∧ e.type = .noteOff) then
          e :: dedupGroupGo rest ((e.note, e.type) :: states)
        else dedupGroupGo rest states

/-- One index step of the short-note extension loop of applyTrackFilter: if
the event at i is a noteOn, find the first later noteOff with the same note
and, when the pair is shorter than 50 ms, extend that noteOff to exactly
50 ms after the noteOn. -/
def extendStep (l : List MidiEvent) (i : Nat) : List MidiEvent :=
  match l[i]? with
  | none => l
  | some cur =>
    if cur.type = .noteOn then
      match (l.drop (i + 1)).findIdx? (fun c => c.type == .noteOff && c.note == cur.note) with
      | none => l
      | some j0 =>
        match l[i + 1 + j0]? with
        | none => l
        | some cand =>
          if cand.seconds - cur.seconds < 1 / 20 then
            l.set (i + 1 + j0) { cand with seconds := cur.seconds + 1 / 20 }
          else l
    else l

/-- The whole extension loop, over the indices 0 to length - 2. -/
def extendPass (l : List MidiEvent) : List MidiEvent :=
  (List.range (l.length - 1)).foldl extendStep l

/-- MIDIPlayer.applyTrackFilter, as the event list it stores into
this.events: filter by track, stable-sort with the noteOff-first tie rule,
deduplicate per millisecond group, sort by seconds, extend short notes, and
sort by seconds again. -/
def applyTrackFilterEvents (allEvents : List MidiEvent) (trackFilter : Option Nat) :
    List MidiEvent :=
  let filtered := filterByTrack allEvents trackFilter
  let sorted1 := filtered.mergeSort trackSortLE
  let dedup := ((groupByMs sorted1).map fun g => dedupGroupGo g.2 []).flatten
  let sorted2 := dedup.mergeSort fun a b => a.seconds ≤ b.seconds
  let extended := extendPass sorted2
  extended.mergeSort fun a b => a.seconds ≤ b.seconds

/-- Whether index i of the list satisfies the minimum-duration claim: if a
noteOn sits at i, the first subsequent noteOff with the same note is at
least 50 ms later. -/
def minDurAt (l : List MidiEvent) (i : Nat) : Bool :=
  match l[i]? with
  | none => true
  | some cur =>
    if cur.type = .noteOn then
      match (l.drop (i + 1)).findIdx? (fun c => c.type == .noteOff && c.note == cur.note) with
      | none => true
      | some j0 =>
        match l[i + 1 + j0]? with
        | none => true
        | some cand => decide (cur.seconds + 1 / 20 ≤ cand.seconds)
    else true

/-- Every noteOn of the list lasts at least 50 ms, measured to the first
subsequent noteOff with the same note. -/
def MinDurProp (l : List MidiEvent) : Prop :=
  ∀ i < l.length, minDurAt l i = true

/-- A two-event playing state used as the concrete witness input for the
update theorem. -/
def demoEv0 : MidiEvent := { type := .noteOn, note := 60, velocity := 80, seconds := 0 }

/-- The matching noteOff of the witness state, two seconds in. -/
def demoEv1 : MidiEvent := { type := .noteOff, note := 60, seconds := 2 }

/-- A playing MIDIPlayer loaded with the two witness events. -/
def demoPlayer : PlayerState :=
  { events := [demoEv0, demoEv1], isPlaying := true, isPaused := false,
    startTime := 0, duration := 2 }

/-- A keyboard state with a leftover sounding note: keyStates entry 48
(MIDI note 60, C4) is set although no key is physically pressed, as happens
after pressing and releasing C4 with sustain on and then switching sustain
off. -/
def sustainLeftover : KeyboardState :=
  { currentOctave := 4, sustainMode := false,
    keyStates := fun j => decide (j = 48), physicallyPressed := ∅ }

/-- Two overlapping note-60 pairs whose four events fall into distinct
millisecond groups: on at 0 s and 10 ms, off at 12 ms and 40 ms. -/
def overlappingNotes : List MidiEvent :=
  [{ type := .noteOn, note := 60, velocity := 80, seconds := 0 },
   { type := .noteOn, note := 60, velocity := 80, seconds := 1 / 100 },
   { type := .noteOff, note := 60, seconds := 3 / 250 },
   { type := .noteOff, note := 60, seconds := 1 / 25 }]

/-- The part of an event the extension loop matches on: its type and note.
The loop only ever rewrites seconds, so this shape is invariant. -/
def noteShape (e : MidiEvent) : EventType × Nat := (e.type, e.note)

/-! ## Lemmas about the variable-length-quantity decoder -/

/-- The accumulator never decreases as bytes are combined. -/
lemma le_combFrom (c : Nat) (bs : List Nat) : c ≤ combFrom c bs := by
  induction bs generalizing c with
  | nil => exact Nat.le_refl c
  | cons b bs ih =>
    calc c ≤ c * 128 + b % 256 % 128 := by nlinarith [Nat.zero_le (b % 256 % 128)]
    _ ≤ combFrom (c * 128 + b % 256 % 128) bs := ih _

/-- Unfolding combFrom along a cons. -/
lemma combFrom_cons (c b : Nat) (bs : List Nat) :
    combFrom c (b :: bs) = combFrom (c * 128 + b % 256 % 128) bs := rfl

/-- Below the signed 32-bit bound the JS shift-and-or accumulator update is
plain base-128 accumulation. -/
lemma vlqStep_eq_of_lt (c b : Nat) (h : c * 128 + b % 128 < 2147483648) :
    vlqStep (c : Int) b = ((c * 128 + b % 128 : Nat) : Int) := by
  have hc : c < 4294967296 := by nlinarith [Nat.zero_le (b % 128)]
  have h1 : toUint32 (c : Int) = c := by
    unfold toUint32
    omega
  unfold vlqStep toInt32
  rw [h1, Nat.mod_eq_of_lt (by omega), if_pos (by omega)]

/-- The VLQ loop, fully characterized on a byte list whose first
clear-high-bit byte is at index k, as long as the accumulated value stays
below 2^31 (so that no 32-bit wrap occurs). -/
lemma readVLQFrom_spec :
    ∀ (k : Nat) (l : List Nat) (c n : Nat),
      k < l.length →
      (∀ j, j < k → 128 ≤ l.getD j 0 % 256) →
      l.getD k 0 % 256 < 128 →
      combFrom c (l.take (k + 1)) < 2147483648 →
      readVLQFrom l (c : Int) n = some (((combFrom c (l.take (k + 1)) : Nat) : Int), n + (k + 1))
  | 0, [], c, n, hk, _, _, _ => by simp at hk
  | 0, b :: rest, c, n, _, _, hterm, hsmall => by
    simp only [List.getD_cons_zero] at hterm
    have htake : (b :: rest).take 1 = [b] := rfl
    rw [htake] at hsmall ⊢
    have hcomb : combFrom c [b] = c * 128 + b % 256 % 128 := rfl
    rw [hcomb] at hsmall ⊢
    unfold readVLQFrom
    rw [if_neg (by omega)]
    have hmod : b % 256 % 128 = b % 256 := Nat.mod_eq_of_lt hterm
    have hstep := vlqStep_eq_of_lt c (b % 256) (by omega)
    rw [hstep, hmod]
  | k + 1, [], c, n, hk, _, _, _ => by simp at hk
  | k + 1, b :: rest, c, n, hk, hcont, hterm, hsmall => by
    have hb : 128 ≤ b % 256 := by
      have := hcont 0 (Nat.succ_pos k)
      simpa using this
    have htake : (b :: rest).take (k + 2) = b :: rest.take (k + 1) := rfl
    rw [htake] at hsmall ⊢
    rw [combFrom_cons] at hsmall ⊢
    have hmid : c * 128 + b % 256 % 128 < 2147483648 :=
      Nat.lt_of_le_of_lt (le_combFrom _ _) hsmall
    have hstep : vlqStep (c : Int) (b % 256) = ((c * 128 + b % 256 % 128 : Nat) : Int) :=
      vlqStep_eq_of_lt c (b % 256) (by omega)
    unfold readVLQFrom
    rw [if_pos hb, hstep]
    have ih := readVLQFrom_spec k rest (c * 128 + b % 256 % 128) (n + 1)
      (by simpa using hk)
      (fun j hj => by have := hcont (j + 1) (by omega); simpa using this)
      (by simpa using hterm)
      hsmall
    have harith : n + 1 + (k + 1) = n + (k + 1 + 1) := by omega
    rw [ih, harith]

/-- C2, amended: readVariableLength consumes the bytes up to and including
the first byte with clear high bit and returns that count as bytesRead; the
returned value is the base-128 big-endian combination of the low 7 bits of
the consumed bytes provided that combination is below 2^31 (the shift and or
of the source are 32-bit operations, so larger combinations wrap). -/
theorem readVariableLength_decodes (bytes : List Nat) (offset : Int) (k : Nat)
    (h0 : 0 ≤ offset)
    (hk : k < (bytes.drop offset.toNat).length)
    (hcont : ∀ j, j < k → 128 ≤ (bytes.drop offset.toNat).getD j 0 % 256)
    (hterm : (bytes.drop offset.toNat).getD k 0 % 256 < 128)
    (hsmall : combFrom 0 ((bytes.drop offset.toNat).take (k + 1)) < 2147483648) :
    readVariableLength bytes offset =
      some (((combFrom 0 ((bytes.drop offset.toNat).take (k + 1)) : Nat) : Int), k + 1) := by
  unfold readVariableLength
  rw [if_neg (by omega)]
  have h := readVLQFrom_spec k (bytes.drop offset.toNat) 0 0 hk hcont hterm hsmall
  simpa using h

/-- Witness for the amended C2 theorem: the two-byte VLQ 0x81 0x48 decodes
to 200 in 2 bytes. -/
theorem readVariableLength_decodes_witness :
    readVariableLength [129, 72] 0 = some (200, 2) := by
  have h := readVariableLength_decodes [129, 72] 0 1 (by decide) (by decide)
    (fun j hj => by
      have hj0 : j = 0 := by omega
      subst hj0
      decide)
    (by decide) (by decide)
  simpa using h

/-- C2, counterexample: on the five-byte VLQ 0x88 0x80 0x80 0x80 0x00 the
source returns the wrapped signed 32-bit value -2147483648 and not the
base-128 combination 2147483648, refuting the claim that the returned value
always equals the combination. -/
theorem readVariableLength_wrap_counterexample :
    readVariableLength [136, 128, 128, 128, 0] 0 = some (-2147483648, 5) ∧
    ((combFrom 0 [136, 128, 128, 128, 0] : Nat) : Int) = 2147483648 ∧
    readVariableLength [136, 128, 128, 128, 0] 0 ≠
      some (((combFrom 0 [136, 128, 128, 128, 0] : Nat) : Int), 5) := by
  decide

/-! ## Lemmas about processEvents -/

/-- Along a list whose tick times are non-decreasing, the seconds assigned by
the tick-to-seconds pass climb from the accumulator: every added delta is a
quotient of non-negative quantities by the positive tick resolution. -/
lemma assignSecondsGo_chain (tpq : Nat) (htpq : 0 < tpq) :
    ∀ (l : List MidiEvent) (tempo : Nat) (ct : Rat) (lastTick : Int),
      l.Pairwise (fun a b => a.time ≤ b.time) →
      (∀ e ∈ l, lastTick ≤ e.time) →
      List.Chain (· ≤ ·) ct ((assignSecondsGo tpq tempo ct lastTick l).map (·.seconds))
  | [], _, _, _, _, _ => by simp [assignSecondsGo]
  | e :: rest, tempo, ct, lastTick, hpair, hlast => by
    unfold assignSecondsGo
    simp only [List.map_cons, List.chain_cons]
    set tempo2 := if e.type = .tempo then e.tempo else tempo with htempo2
    set secondsDelta : Rat :=
      (((e.time - lastTick : Int) : Rat) / (tpq : Rat)) * ((tempo2 : Rat) / 1000000)
      with hsd
    have hdelta : 0 ≤ secondsDelta := by
      apply mul_nonneg
      · apply div_nonneg
        · have : (0 : Int) ≤ e.time - lastTick := by
            have := hlast e (List.mem_cons_self e rest)
            omega
          exact_mod_cast this
        · exact_mod_cast Nat.zero_le tpq
      · apply div_nonneg
        · exact_mod_cast Nat.zero_le tempo2
        · norm_num
    refine ⟨by linarith, ?_⟩
    exact assignSecondsGo_chain tpq htpq rest tempo2 (ct + secondsDelta) e.time
      (List.Pairwise.of_cons hpair)
      (fun e2 he2 => List.rel_of_pairwise_cons hpair he2)

/-- The tick-to-seconds pass keeps the mapped seconds non-decreasing on any
input with non-decreasing tick times, whatever the starting tempo. -/
lemma assignSecondsGo_sorted (tpq : Nat) (htpq : 0 < tpq) (l : List MidiEvent)
    (tempo : Nat) (hpair : l.Pairwise (fun a b => a.time ≤ b.time)) :
    ((assignSecondsGo tpq tempo 0 0 l).map (·.seconds)).Sorted (· ≤ ·) := by
  rw [List.Sorted, ← List.chain'_iff_pairwise]
  match l with
  | [] => simp [assignSecondsGo]
  | e :: rest =>
    have hchain := assignSecondsGo_chain tpq htpq rest
      (if e.type = .tempo then e.tempo else tempo)
      (0 + (((e.time - 0 : Int) : Rat) / (tpq : Rat)) *
        (((if e.type = .tempo then e.tempo else tempo : Nat) : Rat) / 1000000))
      e.time
      (List.Pairwise.of_cons hpair)
      (fun e2 he2 => List.rel_of_pairwise_cons hpair he2)
    show ((assignSecondsGo tpq tempo 0 0 (e :: rest)).map (·.seconds)).Chain' (· ≤ ·)
    unfold assignSecondsGo
    simp only [List.map_cons]
    exact hchain

/-- C1: processEvents merges the tracks, sorts by tick time and accumulates
seconds deltas of the form (tick delta / ticksPerQuarter) * (tempo / 10^6),
updating the tempo at tempo events; with a positive ticksPerQuarter the
seconds timestamps of the returned list are non-decreasing along the list
(in JS a zero ticksPerQuarter would produce NaN timestamps instead). -/
theorem processEvents_seconds_monotone (tracks : List (List MidiEvent))
    (tpq tempo0 : Nat) (htpq : 0 < tpq) :
    ((processEvents tracks tpq tempo0).map (·.seconds)).Sorted (· ≤ ·) := by
  unfold processEvents
  apply assignSecondsGo_sorted tpq htpq _ tempo0
  have hsortedBool := @List.sorted_mergeSort MidiEvent
    (fun a b : MidiEvent => decide (a.time ≤ b.time))
    (fun a b c h1 h2 => by
      simp only [decide_eq_true_eq] at h1 h2 ⊢
      omega)
    (fun a b => by
      simp only [Bool.or_eq_true, decide_eq_true_eq]
      omega)
    ((tracks.enum.map fun p => p.2.map fun e => { e with track := p.1 }).flatten)
  refine hsortedBool.imp ?_
  intro a b h
  simpa using h

/-- Witness for C1 at a concrete two-track file: a tempo change track and a
note track at 96 ticks per quarter. -/
theorem processEvents_seconds_monotone_witness :
    0 < 96 ∧
    ((processEvents
        [[{ time := 0, type := .tempo, tempo := 250000 }],
         [{ time := 0, type := .noteOn, note := 60, velocity := 80, status := 144 },
          { time := 96, type := .noteOff, note := 60, status := 144 }]]
        96 500000).map (·.seconds)).Sorted (· ≤ ·) :=
  ⟨by decide,
    processEvents_seconds_monotone
      [[{ time := 0, type := .tempo, tempo := 250000 }],
       [{ time := 0, type := .noteOn, note := 60, velocity := 80, status := 144 },
        { time := 96, type := .noteOff, note := 60, status := 144 }]]
      96 500000 (by decide)⟩

/-! ## Running status and the Note On velocity convention -/

/-- C3: when the first byte of an event is below 0x80 the event is decoded
with the most recent status byte and its data bytes start at the current
offset (no status byte of its own is consumed); and the running status
passed to the next iteration of the track loop is the status of the current
event exactly for noteOn, noteOff and controlChange events, and is unchanged
otherwise. -/
theorem parseEvent_running_status :
    (∀ (bytes : List Nat) (offset : Int) (rs : Nat) (t : Int) (b : Nat),
      getU8 bytes offset = some b → b < 128 →
      parseEvent bytes offset rs t = decodeEvent bytes offset rs 0 t) ∧
    (∀ (bytes : List Nat) (trackEnd : Int) (fuel : Nat) (trackOffset : Int)
      (rs : Nat) (ct : Int) (acc : List MidiEvent) (dv : Int) (dn : Nat)
      (e : MidiEvent),
      trackOffset < trackEnd →
      readVariableLength bytes trackOffset = some (dv, dn) →
      parseEvent bytes (trackOffset + dn) rs (ct + dv) = some e →
      parseTrackLoop bytes trackEnd (fuel + 1) trackOffset rs ct acc =
        parseTrackLoop bytes trackEnd fuel (trackOffset + dn + e.bytesRead)
          (if e.type = .noteOn ∨ e.type = .noteOff ∨ e.type = .controlChange
            then e.status else rs)
          (ct + dv) (e :: acc)) := by
  constructor
  · intro bytes offset rs t b hb hlt
    unfold parseEvent
    rw [hb]
    simp only [Option.bind_eq_bind, Option.some_bind]
    rw [if_pos hlt]
  · intro bytes trackEnd fuel trackOffset rs ct acc dv dn e hlt hvlq hpe
    conv_lhs => rw [parseTrackLoop]
    rw [if_neg (by omega), hvlq]
    simp only [Option.bind_eq_bind, Option.some_bind]
    rw [hpe]
    simp only [Option.some_bind]
    rw [nextRunningStatus]

/-- Witness for C3: a running-status data byte decoded under status 0x90,
and one track-loop step over a delta time and a Note On. -/
theorem parseEvent_running_status_witness :
    parseEvent [60, 64] 0 144 7 = decodeEvent [60, 64] 0 144 0 7 ∧
    parseTrackLoop [0, 144, 60, 100] 4 2 0 0 0 [] =
      parseTrackLoop [0, 144, 60, 100] 4 1 4 144 0
        [{ time := 0, type := .noteOn, note := 60, velocity := 100, status := 144,
           bytesRead := 3 }] := by
  constructor
  · exact parseEvent_running_status.1 [60, 64] 0 144 7 60 (by decide) (by decide)
  · have h := parseEvent_running_status.2 [0, 144, 60, 100] 4 1 0 0 0 [] 0 1
      { time := 0, type := .noteOn, note := 60, velocity := 100, status := 144,
        bytesRead := 3 }
      (by decide) (by decide) (by decide)
    simpa using h

/-- C9: an event whose effective status has high nibble 9 (a Note On
message) is decoded as a noteOff exactly when its velocity data byte is
zero, and as a noteOn otherwise; the velocity field is that byte. -/
theorem parseEvent_noteOn_velocity_zero
    (bytes : List Nat) (offset : Int) (rs : Nat) (t : Int) (b v : Nat)
    (e : MidiEvent)
    (hb : getU8 bytes offset = some b)
    (hnib : Nat.land (if b < 128 then rs else b) 0xF0 >>> 4 = 9)
    (hv : getU8 bytes (offset + ((if b < 128 then (0 : Nat) else 1) : Nat) + 1) = some v)
    (hpe : parseEvent bytes offset rs t = some e) :
    e.type = (if v = 0 then EventType.noteOff else EventType.noteOn) ∧
    e.velocity = v := by
  unfold parseEvent at hpe
  rw [hb] at hpe
  simp only [Option.bind_eq_bind, Option.some_bind] at hpe
  by_cases hlt : b < 128
  · rw [if_pos hlt] at hpe
    rw [if_pos hlt] at hnib
    rw [if_pos hlt] at hv
    unfold decodeEvent at hpe
    rw [hnib] at hpe
    simp only [Nat.cast_zero, add_zero, Nat.cast_one] at hpe hv
    rw [hv] at hpe
    simp only [Option.bind_eq_bind, Option.some_bind] at hpe
    rw [hb] at hpe
    simp only [Option.some_bind, Option.pure_def, Option.some_inj] at hpe
    subst hpe
    exact ⟨rfl, rfl⟩
  · rw [if_neg hlt] at hpe
    rw [if_neg hlt] at hnib
    rw [if_neg hlt] at hv
    unfold decodeEvent at hpe
    rw [hnib] at hpe
    simp only [Nat.cast_one] at hpe hv
    rw [hv] at hpe
    simp only [Option.bind_eq_bind, Option.some_bind] at hpe
    cases hn : getU8 bytes (offset + 1) with
    | none =>
      rw [hn] at hpe
      simp at hpe
    | some nb =>
      rw [hn] at hpe
      simp only [Option.some_bind, Option.pure_def, Option.some_inj] at hpe
      subst hpe
      exact ⟨rfl, rfl⟩

/-- Witness for C9: the message 0x90 0x3C 0x00, a Note On with velocity
zero, decodes to a noteOff event. -/
theorem parseEvent_noteOn_velocity_zero_witness :
    ({ time := 5, type := .noteOff, channel := 0, note := 60, velocity := 0,
       status := 144, bytesRead := 3 } : MidiEvent).type =
      (if (0 : Nat) = 0 then EventType.noteOff else EventType.noteOn) ∧
    ({ time := 5, type := .noteOff, channel := 0, note := 60, velocity := 0,
       status := 144, bytesRead := 3 } : MidiEvent).velocity = 0 :=
  parseEvent_noteOn_velocity_zero [144, 60, 0] 0 0 5 144 0
    { time := 5, type := .noteOff, channel := 0, note := 60, velocity := 0,
      status := 144, bytesRead := 3 }
    (by decide) (by decide) (by decide) (by decide)

/-! ## Chunk signature checks -/

/-- A byte read inside the buffer succeeds. -/
lemma getU8_isSome_of (bytes : List Nat) (i : Int) (h0 : 0 ≤ i)
    (h1 : i.toNat < bytes.length) : ∃ b, getU8 bytes i = some b := by
  unfold getU8
  rw [if_pos h0]
  cases hq : bytes.get? i.toNat with
  | none =>
    rw [List.get?_eq_none] at hq
    omega
  | some b => exact ⟨b % 256, by simp [hq]⟩

/-- A 16-bit read inside the buffer succeeds. -/
lemma getU16_isSome_of (bytes : List Nat) (i : Int) (h0 : 0 ≤ i)
    (h1 : i.toNat + 2 ≤ bytes.length) : ∃ v, getU16 bytes i = some v := by
  obtain ⟨hi, hhi⟩ := getU8_isSome_of bytes i h0 (by omega)
  obtain ⟨lo, hlo⟩ := getU8_isSome_of bytes (i + 1) (by omega) (by omega)
  exact ⟨hi * 256 + lo, by simp [getU16, hhi, hlo]⟩

/-- A 32-bit read inside the buffer succeeds. -/
lemma getU32_isSome_of (bytes : List Nat) (i : Int) (h0 : 0 ≤ i)
    (h1 : i.toNat + 4 ≤ bytes.length) : ∃ v, getU32 bytes i = some v := by
  obtain ⟨b0, h0'⟩ := getU8_isSome_of bytes i h0 (by omega)
  obtain ⟨b1, h1'⟩ := getU8_isSome_of bytes (i + 1) (by omega) (by omega)
  obtain ⟨b2, h2'⟩ := getU8_isSome_of bytes (i + 2) (by omega) (by omega)
  obtain ⟨b3, h3'⟩ := getU8_isSome_of bytes (i + 3) (by omega) (by omega)
  exact ⟨((b0 * 256 + b1) * 256 + b2) * 256 + b3, by simp [getU32, h0', h1', h2', h3']⟩

/-- C4, amended: a bad signature always makes parseHeaderChunk and
parseTrackChunk throw; when the signature is MThd and the buffer holds the
full 14-byte header, parseHeaderChunk succeeds with format, trackCount and
ticksPerQuarter read as big-endian 16-bit fields at offsets 8, 10 and 12.
The unrestricted only-if direction of the original claim fails on truncated
buffers, where a correct signature still ends in a RangeError. -/
theorem chunk_signature_checks :
    (∀ (bytes : List Nat) (offset : Int),
      readStringBytes bytes offset 4 ≠ some mthdSig →
      parseHeaderChunk bytes offset = none) ∧
    (∀ (bytes : List Nat) (offset : Int), 0 ≤ offset →
      offset.toNat + 14 ≤ bytes.length →
      readStringBytes bytes offset 4 = some mthdSig →
      ∃ h, parseHeaderChunk bytes offset = some h ∧
        getU32 bytes (offset + 4) = some h.length ∧
        getU16 bytes (offset + 8) = some h.format ∧
        getU16 bytes (offset + 10) = some h.trackCount ∧
        getU16 bytes (offset + 12) = some h.ticksPerQuarter) ∧
    (∀ (bytes : List Nat) (offset : Int),
      readStringBytes bytes offset 4 ≠ some mtrkSig →
      parseTrackChunk bytes offset = none) := by
  refine ⟨?_, ?_, ?_⟩
  · intro bytes offset hsig
    unfold parseHeaderChunk
    cases hs : readStringBytes bytes offset 4 with
    | none => rfl
    | some s =>
      rw [hs] at hsig
      simp only [Option.bind_eq_bind, Option.some_bind]
      rw [if_pos (by simpa using fun heq => hsig (by rw [heq]))]
  · intro bytes offset h0 hlen hsig
    obtain ⟨len32, h4⟩ := getU32_isSome_of bytes (offset + 4) (by omega) (by omega)
    obtain ⟨fmt, h8⟩ := getU16_isSome_of bytes (offset + 8) (by omega) (by omega)
    obtain ⟨tc, h10⟩ := getU16_isSome_of bytes (offset + 10) (by omega) (by omega)
    obtain ⟨q, h12⟩ := getU16_isSome_of bytes (offset + 12) (by omega) (by omega)
    refine ⟨⟨len32, fmt, tc, q⟩, ?_, h4, h8, h10, h12⟩
    unfold parseHeaderChunk
    rw [hsig]
    simp only [Option.bind_eq_bind, Option.some_bind]
    rw [if_neg (by simp)]
    rw [h4, h8, h10, h12]
    rfl
  · intro bytes offset hsig
    unfold parseTrackChunk
    cases hs : readStringBytes bytes offset 4 with
    | none => rfl
    | some s =>
      rw [hs] at hsig
      simp only [Option.bind_eq_bind, Option.some_bind]
      rw [if_pos (by simpa using fun heq => hsig (by rw [heq]))]

/-- Witness for the amended C4 theorem: a corrupted header signature, a
complete valid header, and a corrupted track signature. -/
theorem chunk_signature_checks_witness :
    parseHeaderChunk [0, 84, 104, 100, 0, 0, 0, 6, 0, 1, 0, 2, 0, 96] 0 = none ∧
    (∃ h, parseHeaderChunk [77, 84, 104, 100, 0, 0, 0, 6, 0, 1, 0, 2, 0, 96] 0 = some h ∧
      getU32 [77, 84, 104, 100, 0, 0, 0, 6, 0, 1, 0, 2, 0, 96] 4 = some h.length ∧
      getU16 [77, 84, 104, 100, 0, 0, 0, 6, 0, 1, 0, 2, 0, 96] 8 = some h.format ∧
      getU16 [77, 84, 104, 100, 0, 0, 0, 6, 0, 1, 0, 2, 0, 96] 10 = some h.trackCount ∧
      getU16 [77, 84, 104, 100, 0, 0, 0, 6, 0, 1, 0, 2, 0, 96] 12 = some h.ticksPerQuarter) ∧
    parseTrackChunk [77, 0, 114, 107] 0 = none := by
  refine ⟨?_, ?_, ?_⟩
  · exact chunk_signature_checks.1 [0, 84, 104, 100, 0, 0, 0, 6, 0, 1, 0, 2, 0, 96] 0
      (by decide)
  · have h := chunk_signature_checks.2.1 [77, 84, 104, 100, 0, 0, 0, 6, 0, 1, 0, 2, 0, 96] 0
      (by decide) (by decide) (by decide)
    simpa using h
  · exact chunk_signature_checks.2.2 [77, 0, 114, 107] 0 (by decide)

/-- C4, counterexample: a buffer holding exactly the four signature bytes
has the correct signature at the chunk start but both parsers still fail
(the following reads leave the buffer), refuting the only-if direction of
the claimed equivalence. -/
theorem chunk_signature_checks_counterexample :
    readStringBytes [77, 84, 104, 100] 0 4 = some mthdSig ∧
    parseHeaderChunk [77, 84, 104, 100] 0 = none ∧
    readStringBytes [77, 84, 114, 107] 0 4 = some mtrkSig ∧
    parseTrackChunk [77, 84, 114, 107] 0 = none := by
  decide

/-! ## Lissajous curve generation -/

/-- A frequency fallback is positive when the fallback is positive and any
present value is positive or zero. -/
lemma jsOrFreq_pos (o : Option Rat) (fb : Rat) (hfb : 0 < fb)
    (ho : ∀ v, o = some v → 0 < v ∨ v = 0) : 0 < jsOrFreq o fb := by
  cases o with
  | none => simpa [jsOrFreq] using hfb
  | some v =>
    unfold jsOrFreq
    by_cases hv : v = 0
    · simpa [hv] using hfb
    · rcases ho v rfl with h | h
      · simpa [hv] using h
      · exact absurd h hv

/-- C7, amended: for a non-empty list of positive frequencies, createCurve
produces 2000 points, point i being
(5 sin(rx t), 5 sin(ry t + pi/4), 5 sin(rz t + pi/2)) at
t = (i / 2000) pi tRange, where the ratios are the three chosen axis
frequencies divided by their minimum; the smallest ratio is 1. For a list
containing nonpositive frequencies the smallest-ratio clause fails. -/
theorem createCurvePoints_spec (l : List Rat) (tRange : Rat)
    (hne : l ≠ []) (hpos : ∀ v ∈ l, 0 < v) :
    (createCurvePoints l tRange).length = 2000 ∧
    (∀ i, i < 2000 → (createCurvePoints l tRange).get? i =
      some (5 * Real.sin (((curveRatios l).1 : ℝ) * (((i : ℝ) / 2000) * Real.pi * (tRange : ℝ))),
            5 * Real.sin (((curveRatios l).2.1 : ℝ) * (((i : ℝ) / 2000) * Real.pi * (tRange : ℝ)) + Real.pi / 4),
            5 * Real.sin (((curveRatios l).2.2 : ℝ) * (((i : ℝ) / 2000) * Real.pi * (tRange : ℝ)) + Real.pi / 2))) ∧
    min (curveRatios l).1 (min (curveRatios l).2.1 (curveRatios l).2.2) = 1 := by
  obtain ⟨v0, rest, rfl⟩ : ∃ v0 rest, l = v0 :: rest := by
    cases l with
    | nil => exact absurd rfl hne
    | cons a r => exact ⟨a, r, rfl⟩
  have hv0 : 0 < v0 := hpos v0 (List.mem_cons_self v0 rest)
  have hx : 0 < chosenFreqX (v0 :: rest) := by
    apply jsOrFreq_pos _ _ (by norm_num)
    intro v hv
    simp only [List.get?_cons_zero, Option.some_inj] at hv
    exact Or.inl (hv ▸ hv0)
  have hy : 0 < chosenFreqY (v0 :: rest) := by
    apply jsOrFreq_pos _ _ ?_ ?_
    · apply jsOrFreq_pos _ _ (by norm_num)
      intro v hv
      have hv' : some (v0 * (3 / 2)) = some v := hv
      have hv2 : v0 * (3 / 2) = v := by injection hv'
      left
      rw [← hv2]
      positivity
    · intro v hv
      have hv' : rest.get? 0 = some v := hv
      have hw : v ∈ rest := List.get?_mem hv'
      exact Or.inl (hpos v (List.mem_cons_of_mem v0 hw))
  have hz : 0 < chosenFreqZ (v0 :: rest) := by
    apply jsOrFreq_pos _ _ ?_ ?_
    · apply jsOrFreq_pos _ _ (by norm_num)
      intro v hv
      have hv' : some (v0 * 2) = some v := hv
      have hv2 : v0 * 2 = v := by injection hv'
      left
      rw [← hv2]
      positivity
    · intro v hv
      have hv' : rest.get? 1 = some v := hv
      have hw : v ∈ rest := List.get?_mem hv'
      exact Or.inl (hpos v (List.mem_cons_of_mem v0 hw))
  set x := chosenFreqX (v0 :: rest)
  set y := chosenFreqY (v0 :: rest)
  set z := chosenFreqZ (v0 :: rest)
  have hm : 0 < baseFreq (v0 :: rest) := lt_min hx (lt_min hy hz)
  have hmx : baseFreq (v0 :: rest) ≤ x := min_le_left _ _
  have hmy : baseFreq (v0 :: rest) ≤ y := le_trans (min_le_right _ _) (min_le_left _ _)
  have hmz : baseFreq (v0 :: rest) ≤ z := le_trans (min_le_right _ _) (min_le_right _ _)
  have h1x : 1 ≤ x / baseFreq (v0 :: rest) := (one_le_div hm).mpr hmx
  have h1y : 1 ≤ y / baseFreq (v0 :: rest) := (one_le_div hm).mpr hmy
  have h1z : 1 ≤ z / baseFreq (v0 :: rest) := (one_le_div hm).mpr hmz
  refine ⟨by simp [createCurvePoints], ?_, ?_⟩
  · intro i hi
    rw [createCurvePoints, List.get?_eq_getElem?, List.getElem?_map,
      List.getElem?_range hi]
    rfl
  · have hbase : baseFreq (v0 :: rest) = min x (min y z) := rfl
    have hone : baseFreq (v0 :: rest) = x ∨ baseFreq (v0 :: rest) = y ∨
        baseFreq (v0 :: rest) = z := by
      rw [hbase]
      rcases min_choice x (min y z) with h | h
      · exact Or.inl h
      · rcases min_choice y z with h2 | h2
        · exact Or.inr (Or.inl (h.trans h2))
        · exact Or.inr (Or.inr (h.trans h2))
    have hcr : curveRatios (v0 :: rest) =
        (x / baseFreq (v0 :: rest), y / baseFreq (v0 :: rest), z / baseFreq (v0 :: rest)) := rfl
    rw [hcr]
    have hge : 1 ≤ min (x / baseFreq (v0 :: rest))
        (min (y / baseFreq (v0 :: rest)) (z / baseFreq (v0 :: rest))) :=
      le_min h1x (le_min h1y h1z)
    have hle : min (x / baseFreq (v0 :: rest))
        (min (y / baseFreq (v0 :: rest)) (z / baseFreq (v0 :: rest))) ≤ 1 := by
      rcases hone with h | h | h
      · have hx1 : x / baseFreq (v0 :: rest) = 1 := by
          rw [h]
          exact div_self (ne_of_gt hx)
        exact le_trans (min_le_left _ _) (le_of_eq hx1)
      · have hy1 : y / baseFreq (v0 :: rest) = 1 := by
          rw [h]
          exact div_self (ne_of_gt hy)
        exact le_trans (le_trans (min_le_right _ _) (min_le_left _ _)) (le_of_eq hy1)
      · have hz1 : z / baseFreq (v0 :: rest) = 1 := by
          rw [h]
          exact div_self (ne_of_gt hz)
        exact le_trans (le_trans (min_le_right _ _) (min_le_right _ _)) (le_of_eq hz1)
    exact le_antisymm hle hge

/-- Witness for the amended C7 theorem at the single positive frequency 2:
the chosen axes are 2, 3 and 4, the ratios 1, 3/2 and 2. -/
theorem createCurvePoints_spec_witness :
    ([2] : List Rat) ≠ [] ∧
    (createCurvePoints [2] 4).length = 2000 ∧
    min (curveRatios [2]).1 (min (curveRatios [2]).2.1 (curveRatios [2]).2.2) = 1 := by
  have h := createCurvePoints_spec [2] 4 (by decide)
    (fun v hv => by
      simp only [List.mem_singleton] at hv
      rw [hv]
      norm_num)
  exact ⟨by decide, h.1, h.2.2⟩

/-- C7, counterexample: for the non-empty frequency list consisting of the
single value -1 the chosen axes are -1, -3/2 and -2, the minimum is -2, and
the smallest ratio is 1/2, not 1. -/
theorem createCurvePoints_ratio_counterexample :
    min (curveRatios [-1]).1 (min (curveRatios [-1]).2.1 (curveRatios [-1]).2.2) = 1 / 2 ∧
    ((1 : Rat) / 2) ≠ 1 := by
  have hx : chosenFreqX [-1] = -1 := by norm_num [chosenFreqX, jsOrFreq]
  have hy : chosenFreqY [-1] = -(3 / 2) := by norm_num [chosenFreqY, jsOrFreq]
  have hz : chosenFreqZ [-1] = -2 := by norm_num [chosenFreqZ, jsOrFreq]
  have hb : baseFreq [-1] = -2 := by
    unfold baseFreq
    rw [hx, hy, hz]
    norm_num [min_def]
  have hcr : curveRatios [-1] = (1 / 2, 3 / 4, 1) := by
    unfold curveRatios
    rw [hx, hy, hz, hb]
    norm_num
  rw [hcr]
  norm_num [min_def]

/-! ## Keyboard press and release -/

/-- C10, amended: with sustain off, the key not already physically pressed,
and its keyStates entry clear, pressing and then releasing a key restores
the whole keyboard state (in particular keyStates and physicallyPressed,
with no other keyStates entry changed). Without the clear-entry
precondition the pair can erase a note left sounding by an earlier sustain
session. -/
theorem pressKey_releaseKey_identity (s : KeyboardState) (note : NoteName)
    (octaveOffset : Int) (m : Nat)
    (hsus : s.sustainMode = false)
    (hm : midiFor note (s.currentOctave + octaveOffset) = some m)
    (hlo : 12 ≤ m) (hhi : m ≤ 125)
    (hnp : (note, s.currentOctave + octaveOffset) ∉ s.physicallyPressed)
    (hks : s.keyStates (m - 12) = false) :
    releaseKey (pressKey s note octaveOffset) note octaveOffset = s := by
  have hrange : ¬(m < 12 ∨ 125 < m) := by omega
  have hkeys : setIdx (setIdx s.keyStates (m - 12) true) (m - 12) false = s.keyStates := by
    funext j
    unfold setIdx
    by_cases hj : j = m - 12
    · rw [if_pos hj, hj, hks]
    · rw [if_neg hj, if_neg hj]
  have hset : (insert (note, s.currentOctave + octaveOffset) s.physicallyPressed).erase
      (note, s.currentOctave + octaveOffset) = s.physicallyPressed :=
    Finset.erase_insert hnp
  have hpress : pressKey s note octaveOffset =
      { s with
        physicallyPressed := insert (note, s.currentOctave + octaveOffset) s.physicallyPressed,
        keyStates := setIdx s.keyStates (m - 12) true } := by
    simp only [pressKey, hm]
    rw [if_neg hrange, if_neg hnp]
  rw [hpress]
  simp only [releaseKey, hm]
  rw [if_neg hrange]
  rw [if_neg (not_not_intro (Finset.mem_insert_self _ _))]
  rw [if_pos hsus]
  rw [hkeys, hset]

/-- Witness for the amended C10 theorem: pressing and releasing C4 from the
blank keyboard state is the identity. -/
theorem pressKey_releaseKey_identity_witness :
    releaseKey (pressKey { } NoteName.C 0) NoteName.C 0 = ({ } : KeyboardState) :=
  pressKey_releaseKey_identity { } NoteName.C 0 60 rfl (by decide) (by decide)
    (by decide) (by decide) rfl

/-- C10, counterexample: from sustainLeftover (sustain off, C4 not
physically pressed), pressing then releasing C4 clears keyStates entry 48,
so the pair does not restore the state before the press. -/
theorem pressKey_releaseKey_counterexample :
    sustainLeftover.sustainMode = false ∧
    (NoteName.C, (4 : Int)) ∉ sustainLeftover.physicallyPressed ∧
    sustainLeftover.keyStates 48 = true ∧
    (releaseKey (pressKey sustainLeftover NoteName.C 0) NoteName.C 0).keyStates 48 = false ∧
    releaseKey (pressKey sustainLeftover NoteName.C 0) NoteName.C 0 ≠ sustainLeftover := by
  refine ⟨rfl, by decide, by decide, by decide, ?_⟩
  intro h
  have h48 := congrArg (fun st => st.keyStates 48) h
  simp only at h48
  rw [show (releaseKey (pressKey sustainLeftover NoteName.C 0) NoteName.C 0).keyStates 48
      = false by decide] at h48
  rw [show sustainLeftover.keyStates 48 = true by decide] at h48
  exact Bool.false_ne_true h48

/-! ## Player-to-visualization synchronization -/

/-- A state with cleared activeNotes and keyStates satisfies the
synchronization invariant. -/
lemma syncInv_cleared (s : PlayerState) (h1 : s.activeNotes = ∅)
    (h2 : s.keyStates = fun _ => false) : SyncInv s := by
  intro n _ _
  rw [h1, h2]
  simp

/-- MIDIPlayer.processEvent preserves the synchronization invariant. -/
lemma syncInv_processEvent (s : PlayerState) (e : MidiEvent) (h : SyncInv s) :
    SyncInv (playerProcessEvent s e) := by
  unfold playerProcessEvent
  match htype : e.type with
  | .noteOn =>
    dsimp only
    by_cases hr : 12 ≤ e.note ∧ e.note ≤ 125
    · rw [if_pos hr]
      intro n hn h12
      dsimp only
      simp only [Finset.mem_insert, setIdx]
      by_cases hne : n = e.note
      · subst hne
        simp
      · have hidx : n - 12 ≠ e.note - 12 := by omega
        rw [if_neg hidx]
        simpa [hne] using h n hn h12
    · rw [if_neg hr]
      intro n hn h12
      dsimp only
      simp only [Finset.mem_insert]
      have hne : n ≠ e.note := by omega
      simpa [hne] using h n hn h12
  | .noteOff =>
    dsimp only
    by_cases hmem : e.note ∈ s.activeNotes
    · rw [if_pos hmem]
      by_cases hr : 12 ≤ e.note ∧ e.note ≤ 125
      · rw [if_pos hr]
        intro n hn h12
        dsimp only
        simp only [Finset.mem_erase, setIdx]
        by_cases hne : n = e.note
        · subst hne
          simp
        · have hidx : n - 12 ≠ e.note - 12 := by omega
          rw [if_neg hidx]
          simpa [hne] using h n hn h12
      · rw [if_neg hr]
        intro n hn h12
        dsimp only
        simp only [Finset.mem_erase]
        have hne : n ≠ e.note := by omega
        simpa [hne] using h n hn h12
    · rw [if_neg hmem]
      exact h
  | .controlChange => exact h
  | .tempo => exact h
  | .timeSignature => exact h
  | .endOfTrack => exact h
  | .meta => exact h
  | .sysex => exact h
  | .unknown => exact h
  | .undef => exact h

/-- Every operation other than seek preserves the synchronization
invariant. -/
lemma syncInv_applyOp (s : PlayerState) (op : PlayerOp) (h : SyncInv s)
    (hop : ∀ now p, op ≠ .seek now p) : SyncInv (applyOp s op) := by
  match op with
  | .processEvent e => exact syncInv_processEvent s e h
  | .pause =>
    unfold applyOp pauseOp
    by_cases hg : s.isPlaying = true ∧ s.isPaused = false
    · rw [if_pos hg]
      exact syncInv_cleared _ rfl rfl
    · rw [if_neg hg]
      exact h
  | .stop => exact syncInv_cleared _ rfl rfl
  | .reset => exact syncInv_cleared _ rfl rfl
  | .seek now p => exact absurd rfl (hop now p)

/-- C6, amended: starting from a reset state, any sequence of the
operations processEvent, pause, stop and reset keeps a note of the visible
range 12..125 in activeNotes exactly when its keyStates entry is set. The
original claim also allowed seek, which breaks the invariant: seek rebuilds
activeNotes but never writes keyStates. -/
theorem playerOps_keep_sync (s : PlayerState) (ops : List PlayerOp)
    (hseek : ∀ now p, PlayerOp.seek now p ∉ ops) :
    SyncInv (applyOps (resetOp s) ops) := by
  have base : SyncInv (resetOp s) := syncInv_cleared _ rfl rfl
  have step : ∀ (ops2 : List PlayerOp) (s2 : PlayerState), SyncInv s2 →
      (∀ now p, PlayerOp.seek now p ∉ ops2) → SyncInv (applyOps s2 ops2) := by
    intro ops2
    induction ops2 with
    | nil => intro s2 h _; exact h
    | cons op rest ih =>
      intro s2 h hs
      have hop : ∀ now p, op ≠ .seek now p := by
        intro now p heq
        exact hs now p (by rw [← heq]; exact List.mem_cons_self op rest)
      exact ih (applyOp s2 op) (syncInv_applyOp s2 op h hop)
        (fun now p hmem => hs now p (List.mem_cons_of_mem op hmem))
  exact step ops (resetOp s) base hseek

/-- Witness for the amended C6 theorem: a press, a pause, a release, a stop
and a reset starting from the reset default state. -/
theorem playerOps_keep_sync_witness :
    SyncInv (applyOps (resetOp { })
      [.processEvent { type := .noteOn, note := 60, velocity := 80 },
       .pause,
       .processEvent { type := .noteOff, note := 60 },
       .stop, .reset]) := by
  apply playerOps_keep_sync { }
  intro now p hmem
  simp only [List.mem_cons, List.not_mem_nil, or_false] at hmem
  rcases hmem with h | h | h | h | h <;> exact PlayerOp.noConfusion h

/-- C6, counterexample: from the reset state, a noteOn for note 60 followed
by a seek leaves keyStates entry 48 set while activeNotes is empty, so the
invariant fails at note 60 and the original claim (which allows seek in the
sequence) is false. -/
theorem playerOps_sync_counterexample :
    ¬ SyncInv (applyOps (resetOp { })
      [.processEvent { type := .noteOn, note := 60, velocity := 80 },
       .seek 0 0]) := by
  intro h
  have h60 := h 60 (by omega) (by omega)
  have hks : (applyOps (resetOp { })
      [.processEvent { type := .noteOn, note := 60, velocity := 80 },
       .seek 0 0]).keyStates (60 - 12) = true := by decide
  have hact : 60 ∉ (applyOps (resetOp { })
      [.processEvent { type := .noteOn, note := 60, velocity := 80 },
       .seek 0 0]).activeNotes := by decide
  exact hact (h60.mpr hks)

/-! ## The playback polling loop -/

/-- MIDIPlayer.processEvent only touches activeNotes and keyStates. -/
lemma playerProcessEvent_fields (s : PlayerState) (e : MidiEvent) :
    (playerProcessEvent s e).events = s.events ∧
    (playerProcessEvent s e).eventIndex = s.eventIndex ∧
    (playerProcessEvent s e).isPlaying = s.isPlaying ∧
    (playerProcessEvent s e).isPaused = s.isPaused ∧
    (playerProcessEvent s e).duration = s.duration ∧
    (playerProcessEvent s e).currentTime = s.currentTime ∧
    (playerProcessEvent s e).startTime = s.startTime := by
  unfold playerProcessEvent
  match e.type with
  | .noteOn =>
    dsimp only
    split <;> exact ⟨rfl, rfl, rfl, rfl, rfl, rfl, rfl⟩
  | .noteOff =>
    dsimp only
    split
    · split <;> exact ⟨rfl, rfl, rfl, rfl, rfl, rfl, rfl⟩
    · exact ⟨rfl, rfl, rfl, rfl, rfl, rfl, rfl⟩
  | .controlChange => exact ⟨rfl, rfl, rfl, rfl, rfl, rfl, rfl⟩
  | .tempo => exact ⟨rfl, rfl, rfl, rfl, rfl, rfl, rfl⟩
  | .timeSignature => exact ⟨rfl, rfl, rfl, rfl, rfl, rfl, rfl⟩
  | .endOfTrack => exact ⟨rfl, rfl, rfl, rfl, rfl, rfl, rfl⟩
  | .meta => exact ⟨rfl, rfl, rfl, rfl, rfl, rfl, rfl⟩
  | .sysex => exact ⟨rfl, rfl, rfl, rfl, rfl, rfl, rfl⟩
  | .unknown => exact ⟨rfl, rfl, rfl, rfl, rfl, rfl, rfl⟩
  | .undef => exact ⟨rfl, rfl, rfl, rfl, rfl, rfl, rfl⟩

/-- The dispatch loop of MIDIPlayer.update processes exactly the leading
block of pending events that are due at the given time, in order, advancing
eventIndex by the length of that block and leaving every other scheduling
field unchanged. -/
lemma dispatchLoop_spec :
    ∀ (fuel : Nat) (s : PlayerState) (ct : Rat),
      s.events.length - s.eventIndex ≤ fuel →
      (dispatchLoop fuel s ct).2 =
        (s.events.drop s.eventIndex).takeWhile (fun e => decide (e.seconds ≤ ct)) ∧
      (dispatchLoop fuel s ct).1.eventIndex = s.eventIndex +
        ((s.events.drop s.eventIndex).takeWhile (fun e => decide (e.seconds ≤ ct))).length ∧
      (dispatchLoop fuel s ct).1.events = s.events ∧
      (dispatchLoop fuel s ct).1.isPlaying = s.isPlaying ∧
      (dispatchLoop fuel s ct).1.isPaused = s.isPaused ∧
      (dispatchLoop fuel s ct).1.duration = s.duration ∧
      (dispatchLoop fuel s ct).1.currentTime = s.currentTime ∧
      (dispatchLoop fuel s ct).1.startTime = s.startTime
  | 0, s, ct, hfuel => by
    have hdrop : s.events.drop s.eventIndex = [] :=
      List.drop_eq_nil_of_le (by omega)
    rw [hdrop]
    exact ⟨rfl, by simp [dispatchLoop], rfl, rfl, rfl, rfl, rfl, rfl⟩
  | fuel + 1, s, ct, hfuel => by
    unfold dispatchLoop
    cases hg : s.events[s.eventIndex]? with
    | none =>
      have hlen : s.events.length ≤ s.eventIndex := List.getElem?_eq_none_iff.mp hg
      have hdrop : s.events.drop s.eventIndex = [] := List.drop_eq_nil_of_le hlen
      rw [hdrop]
      exact ⟨rfl, by simp, rfl, rfl, rfl, rfl, rfl, rfl⟩
    | some e =>
      obtain ⟨hidx, he⟩ := List.getElem?_eq_some_iff.mp hg
      have hdrop : s.events.drop s.eventIndex = e :: s.events.drop (s.eventIndex + 1) := by
        rw [List.drop_eq_getElem_cons hidx, he]
      rw [hdrop]
      dsimp only
      by_cases hle : e.seconds ≤ ct
      · rw [if_pos hle]
        have hf := playerProcessEvent_fields s e
        have hev1 : (bumpIndex (playerProcessEvent s e)).events = s.events := hf.1
        have hidx1 : (bumpIndex (playerProcessEvent s e)).eventIndex = s.eventIndex + 1 := by
          show (playerProcessEvent s e).eventIndex + 1 = s.eventIndex + 1
          rw [hf.2.1]
        have hih := dispatchLoop_spec fuel (bumpIndex (playerProcessEvent s e)) ct
          (by rw [hev1, hidx1]; omega)
        rw [hev1, hidx1] at hih
        obtain ⟨ih2, ihidx, ihev, ihpl, ihpa, ihdur, ihct, ihst⟩ := hih
        rw [List.takeWhile_cons_of_pos (by simpa using hle)]
        refine ⟨?_, ?_, ?_, ?_, ?_, ?_, ?_, ?_⟩
        · dsimp only
          rw [ih2]
        · dsimp only
          rw [ihidx]
          simp only [List.length_cons]
          omega
        · dsimp only
          rw [ihev]
        · dsimp only
          rw [ihpl]
          exact (hf.2.2.1 : (bumpIndex (playerProcessEvent s e)).isPlaying = s.isPlaying)
        · dsimp only
          rw [ihpa]
          exact (hf.2.2.2.1 : (bumpIndex (playerProcessEvent s e)).isPaused = s.isPaused)
        · dsimp only
          rw [ihdur]
          exact (hf.2.2.2.2.1 : (bumpIndex (playerProcessEvent s e)).duration = s.duration)
        · dsimp only
          rw [ihct]
          exact (hf.2.2.2.2.2.1 :
            (bumpIndex (playerProcessEvent s e)).currentTime = s.currentTime)
        · dsimp only
          rw [ihst]
          exact (hf.2.2.2.2.2.2 :
            (bumpIndex (playerProcessEvent s e)).startTime = s.startTime)
      · rw [if_neg hle]
        rw [List.takeWhile_cons_of_neg (by simpa using hle)]
        exact ⟨rfl, by simp, rfl, rfl, rfl, rfl, rfl, rfl⟩

/-- On a list sorted by seconds, the due-prefix equals the set of all due
events: takeWhile and filter agree. -/
lemma takeWhile_eq_filter_sorted (ct : Rat) :
    ∀ (l : List MidiEvent), ((l.map (·.seconds)).Sorted (· ≤ ·)) →
      l.takeWhile (fun e => decide (e.seconds ≤ ct)) =
        l.filter (fun e => decide (e.seconds ≤ ct))
  | [], _ => rfl
  | e :: rest, hsorted => by
    rw [List.map_cons] at hsorted
    have hs2 : (rest.map (·.seconds)).Sorted (· ≤ ·) := hsorted.of_cons
    by_cases hle : e.seconds ≤ ct
    · rw [List.takeWhile_cons_of_pos (by simpa using hle),
        List.filter_cons_of_pos (by simpa using hle)]
      rw [takeWhile_eq_filter_sorted ct rest hs2]
    · rw [List.takeWhile_cons_of_neg (by simpa using hle),
        List.filter_cons_of_neg (by simpa using hle)]
      symm
      rw [List.filter_eq_nil_iff]
      intro a ha
      have hrel : e.seconds ≤ a.seconds :=
        List.rel_of_pairwise_cons hsorted (List.mem_map_of_mem (·.seconds) ha)
      simp only [decide_eq_true_eq]
      intro hc
      exact hle (le_trans hrel hc)

/-- A list sorted by the final comparator of applyTrackFilter has
non-decreasing seconds, so loaded event lists satisfy the sortedness
hypothesis of the update theorem. -/
lemma mergeSortSeconds_sorted (l : List MidiEvent) :
    (((l.mergeSort fun a b => a.seconds ≤ b.seconds).map (·.seconds)).Sorted (· ≤ ·)) := by
  rw [List.Sorted, List.pairwise_map]
  have h := @List.sorted_mergeSort MidiEvent
    (fun a b : MidiEvent => decide (a.seconds ≤ b.seconds))
    (fun x y z h1 h2 => by
      simp only [decide_eq_true_eq] at h1 h2 ⊢
      linarith)
    (fun x y => by
      simp only [Bool.or_eq_true, decide_eq_true_eq]
      exact le_total _ _)
    l
  exact h.imp (fun hx => by simpa using hx)

/-- The event list stored by applyTrackFilter is sorted by seconds. -/
lemma applyTrackFilterEvents_sorted (allEvents : List MidiEvent)
    (trackFilter : Option Nat) :
    (((applyTrackFilterEvents allEvents trackFilter).map (·.seconds)).Sorted (· ≤ ·)) :=
  mergeSortSeconds_sorted _

/-- C5: with the loaded events sorted by seconds (as applyTrackFilter leaves
them), a polling update during a play run dispatches, in list order, exactly
the not-yet-dispatched events whose timestamp is at most the elapsed time
now - startTime; short of the duration the event index advances by exactly
the dispatched count (so it never decreases and no event is dispatched
twice); once the elapsed time reaches the duration the update stops
playback; and an update outside a play run does nothing. -/
theorem updateStep_spec (s : PlayerState) (now : Rat)
    (hsorted : (s.events.map (·.seconds)).Sorted (· ≤ ·)) :
    (s.isPlaying = true → s.isPaused = false →
      (updateStep now s).2 =
        (s.events.drop s.eventIndex).filter
          (fun e => decide (e.seconds ≤ now - s.startTime))) ∧
    (s.isPlaying = true → s.isPaused = false → ¬(s.duration ≤ now - s.startTime) →
      (updateStep now s).1.eventIndex = s.eventIndex +
        ((s.events.drop s.eventIndex).filter
          (fun e => decide (e.seconds ≤ now - s.startTime))).length ∧
      (updateStep now s).1.isPlaying = true) ∧
    (s.isPlaying = true → s.isPaused = false → s.duration ≤ now - s.startTime →
      (updateStep now s).1.isPlaying = false ∧ (updateStep now s).1.eventIndex = 0) ∧
    (s.isPlaying = false ∨ s.isPaused = true → updateStep now s = (s, [])) := by
  have hdropsorted : ((s.events.drop s.eventIndex).map (·.seconds)).Sorted (· ≤ ·) := by
    rw [List.map_drop]
    exact List.Pairwise.sublist (List.drop_sublist _ _) hsorted
  have hfilter := takeWhile_eq_filter_sorted (now - s.startTime)
    (s.events.drop s.eventIndex) hdropsorted
  by_cases hguard : s.isPlaying = false ∨ s.isPaused = true
  · refine ⟨?_, ?_, ?_, ?_⟩
    · intro hplay hpause
      rcases hguard with h | h
      · rw [hplay] at h; exact absurd h (by simp)
      · rw [hpause] at h; exact absurd h (by simp)
    · intro hplay hpause _
      rcases hguard with h | h
      · rw [hplay] at h; exact absurd h (by simp)
      · rw [hpause] at h; exact absurd h (by simp)
    · intro hplay hpause _
      rcases hguard with h | h
      · rw [hplay] at h; exact absurd h (by simp)
      · rw [hpause] at h; exact absurd h (by simp)
    · intro _
      unfold updateStep
      rw [if_pos hguard]
  · have hplay : s.isPlaying = true := by
      cases hb : s.isPlaying with
      | false => exact absurd (Or.inl hb) hguard
      | true => rfl
    have hpause : s.isPaused = false := by
      cases hb : s.isPaused with
      | false => rfl
      | true => exact absurd (Or.inr hb) hguard
    have hspec := dispatchLoop_spec s.events.length
      { s with currentTime := now - s.startTime } (now - s.startTime)
      (by dsimp only; omega)
    obtain ⟨h2, hidx, hev, hpl, hpa, hdur, hct, hst⟩ := hspec
    have hupd : updateStep now s =
        (let r := dispatchLoop s.events.length
          { s with currentTime := now - s.startTime } (now - s.startTime)
         if r.1.duration ≤ now - s.startTime then (stopOp r.1, r.2) else (r.1, r.2)) := by
      unfold updateStep
      rw [if_neg hguard]
    refine ⟨?_, ?_, ?_, ?_⟩
    · intro _ _
      rw [hupd]
      dsimp only
      by_cases hd : (dispatchLoop s.events.length
          { s with currentTime := now - s.startTime } (now - s.startTime)).1.duration ≤
          now - s.startTime
      · rw [if_pos hd]
        dsimp only
        rw [h2]
        exact hfilter
      · rw [if_neg hd]
        dsimp only
        rw [h2]
        exact hfilter
    · intro _ _ hdlt
      rw [hupd]
      dsimp only
      rw [if_neg (by rw [hdur]; dsimp only; exact hdlt)]
      constructor
      · rw [hidx]
        dsimp only
        rw [hfilter]
      · rw [hpl]
        exact hplay
    · intro _ _ hdge
      rw [hupd]
      dsimp only
      rw [if_pos (by rw [hdur]; dsimp only; exact hdge)]
      exact ⟨rfl, rfl⟩
    · intro hg
      exact absurd hg hguard

unseal Rat.add Rat.mul Rat.inv Rat.sub in
/-- Witness for C5: one second into the demo run, the update dispatches
exactly the first event, advances the index to 1 and keeps playing. -/
theorem updateStep_spec_witness :
    (updateStep 1 demoPlayer).2 = [demoEv0] ∧
    (updateStep 1 demoPlayer).1.eventIndex = 1 ∧
    (updateStep 1 demoPlayer).1.isPlaying = true := by
  have h := updateStep_spec demoPlayer 1 (by decide)
  have h2 := h.2.1 rfl rfl (by decide)
  exact ⟨(h.1 rfl rfl).trans (by decide), h2.1.trans (by decide), h2.2⟩

/-! ## The short-note extension pass of applyTrackFilter -/

/-- Setting an entry to the value it already holds is the identity. -/
lemma set_of_getElem_eq {α : Type} :
    ∀ (l : List α) (n : Nat) (a : α), l[n]? = some a → l.set n a = l
  | [], n, a, h => by simp at h
  | b :: t, 0, a, h => by
    rw [List.getElem?_cons_zero, Option.some_inj] at h
    rw [List.set_cons_zero, h]
  | b :: t, n + 1, a, h => by
    rw [List.getElem?_cons_succ] at h
    rw [List.set_cons_succ, set_of_getElem_eq t n a h]

/-- Rewriting the seconds of one entry does not change the note shapes. -/
lemma set_seconds_shape (l : List MidiEvent) (j : Nat) (cand : MidiEvent)
    (hcand : l[j]? = some cand) (sec : Rat) :
    (l.set j { cand with seconds := sec }).map noteShape = l.map noteShape := by
  rw [List.map_set]
  have h1 : (l.map noteShape)[j]? = some (noteShape cand) := by
    rw [List.getElem?_map, hcand]
    rfl
  have h2 : noteShape { cand with seconds := sec } = noteShape cand := rfl
  rw [h2, set_of_getElem_eq _ _ _ h1]

/-- The first-noteOff search only looks at note shapes, so it is stable
under any shape-preserving rewrite of the list. -/
lemma findIdx?_shape_eq (l l2 : List MidiEvent)
    (hshape : l2.map noteShape = l.map noteShape) (k : Nat) (nt : Nat) :
    (l2.drop k).findIdx? (fun c => c.type == EventType.noteOff && c.note == nt) =
      (l.drop k).findIdx? (fun c => c.type == EventType.noteOff && c.note == nt) := by
  have h1 : (fun c : MidiEvent => c.type == EventType.noteOff && c.note == nt) =
      ((fun sh : EventType × Nat => sh.1 == EventType.noteOff && sh.2 == nt) ∘ noteShape) := rfl
  rw [h1, ← List.findIdx?_map, ← List.findIdx?_map, List.map_drop, List.map_drop, hshape]

/-- One extension step preserves every note shape, never lowers a
timestamp, and leaves noteOn events entirely unchanged. -/
lemma extendStep_shape (l : List MidiEvent) (i : Nat) :
    (extendStep l i).map noteShape = l.map noteShape ∧
    (∀ (p : Nat) (e e2 : MidiEvent), l[p]? = some e → (extendStep l i)[p]? = some e2 →
      e.seconds ≤ e2.seconds ∧ (e.type = .noteOn → e2 = e)) := by
  have htriv : ∀ (p : Nat) (e e2 : MidiEvent), l[p]? = some e → l[p]? = some e2 →
      e.seconds ≤ e2.seconds ∧ (e.type = .noteOn → e2 = e) := by
    intro p e e2 h1 h2
    rw [h1, Option.some_inj] at h2
    subst h2
    exact ⟨le_refl _, fun _ => rfl⟩
  unfold extendStep
  cases hg : l[i]? with
  | none => exact ⟨rfl, htriv⟩
  | some cur =>
    dsimp only
    by_cases hty : cur.type = .noteOn
    · rw [if_pos hty]
      cases hfind : (l.drop (i + 1)).findIdx?
          (fun c => c.type == EventType.noteOff && c.note == cur.note) with
      | none => exact ⟨rfl, htriv⟩
      | some j0 =>
        dsimp only
        cases hcand : l[i + 1 + j0]? with
        | none => exact ⟨rfl, htriv⟩
        | some cand =>
          dsimp only
          by_cases hshort : cand.seconds - cur.seconds < 1 / 20
          · rw [if_pos hshort]
            obtain ⟨hjlt, hp, _⟩ := List.findIdx?_eq_some_iff_getElem.mp hfind
            have hdg : (l.drop (i + 1))[j0]? = l[i + 1 + j0]? := List.getElem?_drop _ _ _
            have hcandty : cand.type = .noteOff := by
              have hsome : (l.drop (i + 1))[j0]? = some cand := by rw [hdg, hcand]
              have hval : (l.drop (i + 1))[j0] = cand := by
                have := List.getElem?_eq_getElem hjlt
                rw [this, Option.some_inj] at hsome
                exact hsome
              rw [hval] at hp
              simp only [Bool.and_eq_true, beq_iff_eq] at hp
              exact hp.1
            refine ⟨set_seconds_shape l _ cand hcand _, ?_⟩
            intro p e e2 h1 h2
            by_cases hpj : p = i + 1 + j0
            · rw [hpj] at h1 h2
              rw [hcand, Option.some_inj] at h1
              have hlen : i + 1 + j0 < l.length := (List.getElem?_eq_some_iff.mp hcand).1
              rw [List.getElem?_set_self hlen, Option.some_inj] at h2
              subst h2
              subst h1
              constructor
              · dsimp only
                linarith
              · intro hcontra
                rw [hcontra] at hcandty
                exact absurd hcandty (by intro hcon; exact EventType.noConfusion hcon)
            · rw [List.getElem?_set_ne (fun hne => hpj hne.symm)] at h2
              exact htriv p e e2 h1 h2
          · rw [if_neg hshort]
            exact ⟨rfl, htriv⟩
    · rw [if_neg hty]
      exact ⟨rfl, htriv⟩

/-- The minimum-duration check at one index survives any shape-preserving,
seconds-non-decreasing rewrite that leaves noteOn events unchanged. -/
lemma minDurAt_mono (l l2 : List MidiEvent)
    (hshape : l2.map noteShape = l.map noteShape)
    (hsec : ∀ (p : Nat) (e e2 : MidiEvent), l[p]? = some e → l2[p]? = some e2 →
      e.seconds ≤ e2.seconds ∧ (e.type = .noteOn → e2 = e))
    (k : Nat) (hok : minDurAt l k = true) : minDurAt l2 k = true := by
  have hlen : l2.length = l.length := by
    have h := congrArg List.length hshape
    simpa using h
  unfold minDurAt
  cases hg2 : l2[k]? with
  | none => rfl
  | some cur2 =>
    dsimp only
    have hk : k < l.length := by
      have := (List.getElem?_eq_some_iff.mp hg2).1
      omega
    obtain ⟨cur, hg⟩ : ∃ cur, l[k]? = some cur := by
      rw [List.getElem?_eq_getElem hk]
      exact ⟨_, rfl⟩
    have hshk : noteShape cur2 = noteShape cur := by
      have h1 := congrArg (fun t => t[k]?) hshape
      dsimp only at h1
      rw [List.getElem?_map, List.getElem?_map, hg, hg2] at h1
      simpa using h1
    have hty2 : cur2.type = cur.type := congrArg Prod.fst hshk
    have hnote2 : cur2.note = cur.note := congrArg Prod.snd hshk
    by_cases hty : cur2.type = .noteOn
    · have htyl : cur.type = .noteOn := by rw [← hty2]; exact hty
      have hcur2 : cur2 = cur := (hsec k cur cur2 hg hg2).2 htyl
      rw [if_pos hty]
      rw [findIdx?_shape_eq l l2 hshape (k + 1) cur2.note, hnote2]
      cases hfind : (l.drop (k + 1)).findIdx?
          (fun c => c.type == EventType.noteOff && c.note == cur.note) with
      | none => rfl
      | some j0 =>
        dsimp only
        cases hc2 : l2[k + 1 + j0]? with
        | none => rfl
        | some cand2 =>
          dsimp only
          have hjlen : k + 1 + j0 < l.length := by
            have := (List.getElem?_eq_some_iff.mp hc2).1
            omega
          obtain ⟨cand, hcl⟩ : ∃ cand, l[k + 1 + j0]? = some cand := by
            rw [List.getElem?_eq_getElem hjlen]
            exact ⟨_, rfl⟩
          unfold minDurAt at hok
          rw [hg] at hok
          dsimp only at hok
          rw [if_pos htyl, hfind] at hok
          dsimp only at hok
          rw [hcl] at hok
          dsimp only at hok
          rw [decide_eq_true_eq] at hok
          have hsecc := (hsec _ cand cand2 hcl hc2).1
          rw [decide_eq_true_eq, hcur2]
          linarith
    · rw [if_neg hty]

/-- After the extension step at index i the minimum-duration check holds at
index i. -/
lemma extendStep_establishes (l : List MidiEvent) (i : Nat) :
    minDurAt (extendStep l i) i = true := by
  cases hg : l[i]? with
  | none =>
    have he : extendStep l i = l := by
      unfold extendStep
      rw [hg]
    rw [he]
    unfold minDurAt
    rw [hg]
  | some cur =>
    by_cases hty : cur.type = .noteOn
    · cases hfind : (l.drop (i + 1)).findIdx?
          (fun c => c.type == EventType.noteOff && c.note == cur.note) with
      | none =>
        have he : extendStep l i = l := by
          unfold extendStep
          rw [hg]
          dsimp only
          rw [if_pos hty, hfind]
        rw [he]
        unfold minDurAt
        rw [hg]
        dsimp only
        rw [if_pos hty, hfind]
      | some j0 =>
        cases hcand : l[i + 1 + j0]? with
        | none =>
          have he : extendStep l i = l := by
            unfold extendStep
            rw [hg]
            dsimp only
            rw [if_pos hty, hfind]
            dsimp only
            rw [hcand]
          rw [he]
          unfold minDurAt
          rw [hg]
          dsimp only
          rw [if_pos hty, hfind]
          dsimp only
          rw [hcand]
        | some cand =>
          have hjlen : i + 1 + j0 < l.length := (List.getElem?_eq_some_iff.mp hcand).1
          by_cases hshort : cand.seconds - cur.seconds < 1 / 20
          · have he : extendStep l i =
                l.set (i + 1 + j0) { cand with seconds := cur.seconds + 1 / 20 } := by
              unfold extendStep
              rw [hg]
              dsimp only
              rw [if_pos hty, hfind]
              dsimp only
              rw [hcand]
              dsimp only
              rw [if_pos hshort]
            have hshape : (extendStep l i).map noteShape = l.map noteShape :=
              (extendStep_shape l i).1
            rw [he] at hshape ⊢
            have hgi : (l.set (i + 1 + j0)
                { cand with seconds := cur.seconds + 1 / 20 })[i]? = some cur := by
              rw [List.getElem?_set_ne (by omega)]
              exact hg
            unfold minDurAt
            rw [hgi]
            dsimp only
            rw [if_pos hty]
            rw [findIdx?_shape_eq l _ hshape (i + 1) cur.note, hfind]
            dsimp only
            rw [List.getElem?_set_self (by omega)]
            dsimp only
            rw [decide_eq_true_eq]
          · have he : extendStep l i = l := by
              unfold extendStep
              rw [hg]
              dsimp only
              rw [if_pos hty, hfind]
              dsimp only
              rw [hcand]
              dsimp only
              rw [if_neg hshort]
            rw [he]
            unfold minDurAt
            rw [hg]
            dsimp only
            rw [if_pos hty, hfind]
            dsimp only
            rw [hcand]
            dsimp only
            rw [decide_eq_true_eq]
            linarith
    · have he : extendStep l i = l := by
        unfold extendStep
        rw [hg]
        dsimp only
        rw [if_neg hty]
      rw [he]
      unfold minDurAt
      rw [hg]
      dsimp only
      rw [if_neg hty]

/-- The extension fold preserves note shapes. -/
lemma extendFold_shape :
    ∀ (cnt start : Nat) (l : List MidiEvent),
      ((List.range' start cnt).foldl extendStep l).map noteShape = l.map noteShape
  | 0, _, l => by simp
  | cnt + 1, start, l => by
    rw [List.range'_succ, List.foldl_cons]
    rw [extendFold_shape cnt (start + 1) (extendStep l start)]
    exact (extendStep_shape l start).1

/-- Running the extension loop over a contiguous index range establishes
the minimum-duration check on all processed indices and keeps it on all
previously established ones. -/
lemma extendFold_ok :
    ∀ (cnt start : Nat) (l : List MidiEvent),
      (∀ k, k < start → minDurAt l k = true) →
      ∀ k, k < start + cnt →
        minDurAt ((List.range' start cnt).foldl extendStep l) k = true
  | 0, start, l, hpre, k, hk => by
    have h := hpre k (by omega)
    simpa using h
  | cnt + 1, start, l, hpre, k, hk => by
    rw [List.range'_succ, List.foldl_cons]
    apply extendFold_ok cnt (start + 1) (extendStep l start) ?_ k (by omega)
    intro k2 hk2
    by_cases hk2s : k2 < start
    · exact minDurAt_mono l (extendStep l start) (extendStep_shape l start).1
        (extendStep_shape l start).2 k2 (hpre k2 hk2s)
    · have hk2e : k2 = start := by omega
      rw [hk2e]
      exact extendStep_establishes l start

/-- C8, amended: immediately after the short-note extension pass (before
applyTrackFilter re-sorts the list), every noteOn is followed by its first
matching noteOff at least 50 ms later. The final re-sort can move an
extended noteOff past another noteOff of the same note, so the property
fails for the list applyTrackFilter stores, as the counterexample shows. -/
theorem extendPass_minDur (l : List MidiEvent) : MinDurProp (extendPass l) := by
  intro i hi
  have hlen : (extendPass l).length = l.length := by
    have h := congrArg List.length (extendFold_shape (l.length - 1) 0 l)
    simpa [extendPass, List.range_eq_range'] using h
  rw [hlen] at hi
  by_cases hsmall : i < l.length - 1
  · have h := extendFold_ok (l.length - 1) 0 l
      (fun k hk => absurd hk (Nat.not_lt_zero k)) i (by omega)
    rw [extendPass, List.range_eq_range']
    exact h
  · unfold minDurAt
    cases hg : (extendPass l)[i]? with
    | none => rfl
    | some cur =>
      dsimp only
      by_cases hty : cur.type = .noteOn
      · rw [if_pos hty]
        have hdrop : (extendPass l).drop (i + 1) = [] := by
          apply List.drop_eq_nil_of_le
          omega
        rw [hdrop]
        rfl
      · rw [if_neg hty]

/-- Witness for the amended C8 theorem: the concrete overlapping input of
the counterexample, taken through the extension pass alone, satisfies the
minimum-duration property. -/
theorem extendPass_minDur_witness :
    MinDurProp (extendPass
      [{ type := .noteOn, note := 60, velocity := 80, seconds := 0 },
       { type := .noteOn, note := 60, velocity := 80, seconds := 1 / 100 },
       { type := .noteOff, note := 60, seconds := 3 / 250 },
       { type := .noteOff, note := 60, seconds := 1 / 25 }]) :=
  extendPass_minDur
    [{ type := .noteOn, note := 60, velocity := 80, seconds := 0 },
     { type := .noteOn, note := 60, velocity := 80, seconds := 1 / 100 },
     { type := .noteOff, note := 60, seconds := 3 / 250 },
     { type := .noteOff, note := 60, seconds := 1 / 25 }]

unseal Rat.add Rat.mul Rat.inv Rat.sub List.merge List.mergeSort in
/-- C8, counterexample: on the overlapping input the extension pass moves
the first noteOff to 50 ms, but the final sort places the untouched 40 ms
noteOff first again, so in the stored event list the first noteOn (at 0 s)
is followed by a matching noteOff only 40 ms later: the claimed property
fails on this.events. -/
theorem applyTrackFilter_minDur_counterexample :
    ¬ MinDurProp (applyTrackFilterEvents overlappingNotes none) := by
  intro h
  have h0 := h 0 (by decide)
  rw [show minDurAt (applyTrackFilterEvents overlappingNotes none) 0 = false by decide] at h0
  exact Bool.false_ne_true h0

end WaveGen
